import Mathlib

/-!
# Verification of the vcdbtree codec and backup gating of vintagestory-restic

A shallow embedding, in Lean 4, of the core of the `vintagestory-restic`
repository:

* the ChunkPos position codec (`extractChunkX`, `extractChunkZ`,
  `GetShardedPath`) from `internal/vcdbtree/vcdbtree.go`;
* the `Split` / `Combine` conversion between the five-table savegame
  database and the vcdbtree directory layout;
* the incremental variant `SplitWithCache` with its content comparison
  (`fileMatchesContent`) and stale-file cleanup (`cleanupStaleFiles`);
* the `PlayerChecker` presence gate (`HandleOutput`, `ShouldBackup`);
* `Manager.ensureRepoInitialized`.

Modelling conventions:

* Go strings are modelled as `List Char` (`Str`); file paths as lists of
  components (`FPath`), relative to the output/cache root; blobs as lists
  of bytes (`Blob`, byte values abstracted to `Nat`).
* A 64-bit signed integer is an `Int`; its two's-complement bit pattern is
  the `Nat` given by `toUInt64n`.  Bit operations of the Go code act on
  that pattern.
* The filesystem is a finite association list from paths to files; a file
  carries its content and a modification time, and writing stamps the
  supplied clock value so that claims about untouched mtimes are faithful.
* Directories are not modelled separately: `os.MkdirAll` always succeeds
  and `cleanupEmptyDirs` only affects empty directories, never files, so
  file-level claims are unaffected.
* I/O errors (unreadable files, failed writes) are outside the model; the
  SQLite layer is modelled by the five tables with their schema key
  constraints.
-/

/-! ## Strings as lists of characters -/

/-- Go strings, modelled as lists of characters. -/
abbrev Str := List Char

/-- Paths relative to the output/cache root, as a list of components
(the Go code joins components with filepath.Join). -/
abbrev FPath := List Str

/-- Binary blob contents; byte values are abstracted to `Nat`. -/
abbrev Blob := List Nat

/-- `startsWithStr s m` is true when `m` is an initial run of `s`
(Go `strings.HasPrefix s m`). -/
def startsWithStr : Str → Str → Bool
  | _, [] => true
  | [], _ :: _ => false
  | c :: s, d :: m => c = d && startsWithStr s m

/-- `endsWithStr suf s` is true when `s` ends with `suf`
(Go `strings.HasSuffix s suf`). -/
def endsWithStr (suf s : Str) : Bool :=
  startsWithStr s.reverse suf.reverse

/-- `containsStr m s` is true when `m` occurs as a contiguous run inside
`s` (Go `strings.Contains s m`). -/
def containsStr (m : Str) : Str → Bool
  | [] => startsWithStr [] m
  | c :: t => startsWithStr (c :: t) m || containsStr m t

/-- Scanner for `countSub`; the fuel argument only forces structural
termination and is always supplied large enough. -/
def countSubAux (m : Str) : Nat → Str → Nat
  | 0, _ => 0
  | _ + 1, [] => 0
  | fuel + 1, c :: t =>
    if startsWithStr (c :: t) m then 1 + countSubAux m fuel ((c :: t).drop m.length)
    else countSubAux m fuel t

/-- Number of non-overlapping occurrences of a non-empty `m` inside `s`
(Go `strings.Count s m`; the empty-pattern case of `strings.Count`
returns the rune count plus one). -/
def countSub (m : Str) (s : Str) : Nat :=
  if m = [] then s.length + 1 else countSubAux m (s.length + 1) s

/-- The remainder of `s` after the first (leftmost) occurrence of `m`,
or `none` when `m` does not occur. -/
def restAfterFirst (m : Str) : Str → Option Str
  | [] => if startsWithStr [] m then some [] else none
  | c :: t =>
    if startsWithStr (c :: t) m then some ((c :: t).drop m.length)
    else restAfterFirst m t

/-- Character-for-character replacement
(Go `strings.ReplaceAll s (string a) (string b)` for single characters). -/
def replaceAllChar (s : Str) (a b : Char) : Str :=
  s.map fun c => if c = a then b else c

/-- Remove every trailing `'='` (Go `strings.TrimRight s "="`). -/
def trimRightEqs (s : Str) : Str :=
  (s.reverse.dropWhile fun c => c = '=').reverse

/-- `trimSuffixStr suf s` removes one final `suf` when present
(Go `strings.TrimSuffix s suf`). -/
def trimSuffixStr (suf s : Str) : Str :=
  if endsWithStr suf s then s.take (s.length - suf.length) else s

/-! ## Digit formatting and parsing -/

/-- The hexadecimal digit characters used by Go's `%x` / `FormatInt`
formatting (lowercase, from the digit table "0123456789abcdef"). -/
def hexDigitChar (n : Nat) : Char :=
  if n < 10 then Char.ofNat ('0'.toNat + n)
  else Char.ofNat ('a'.toNat + (n - 10))

/-- Value of a hexadecimal digit character, either case, computed the way
Go's `strconv.ParseUint` does (digit arithmetic on the code point). -/
def hexVal (c : Char) : Option Nat :=
  if '0' ≤ c ∧ c ≤ '9' then some (c.toNat - ('0').toNat)
  else if 'a' ≤ c ∧ c ≤ 'f' then some (c.toNat - ('a').toNat + 10)
  else if 'A' ≤ c ∧ c ≤ 'F' then some (c.toNat - ('A').toNat + 10)
  else none

/-- Value of a decimal digit character. -/
def decVal (c : Char) : Option Nat :=
  if '0' ≤ c ∧ c ≤ '9' then some (c.toNat - ('0').toNat) else none

/-- `k` hexadecimal digits of `n`, most significant first, zero padded
(the digits produced by Go's `fmt.Sprintf "%0kx"`). -/
def hexFormat : Nat → Nat → Str
  | 0, _ => []
  | k + 1, n => hexFormat k (n / 16) ++ [hexDigitChar (n % 16)]

/-- The 16-hex-digit zero-padded rendering used for position filenames
(`fmt.Sprintf "%016x" (uint64 position)`). -/
def hexFormat16 (n : Nat) : Str := hexFormat 16 n

/-- Fold a run of hexadecimal digit characters into a value;
`none` on the first non-digit. -/
def parseHexAux (acc : Nat) : Str → Option Nat
  | [] => some acc
  | c :: r =>
    match hexVal c with
    | some d => parseHexAux (acc * 16 + d) r
    | none => none

/-- Go `strconv.ParseUint s 16 64` restricted to the 16-character strings
the caller feeds it: no sign, hexadecimal digits only, empty rejected.
(The 64-bit range check cannot fire on at most 16 digits.) -/
def parseHexNat : Str → Option Nat
  | [] => none
  | c :: r => parseHexAux 0 (c :: r)

/-- Digit extractor for `natDec`; the fuel argument only forces
structural termination and is always supplied large enough. -/
def natDecAux : Nat → Nat → Str
  | 0, _ => []
  | fuel + 1, n =>
    if n < 10 then [hexDigitChar n]
    else natDecAux fuel (n / 10) ++ [hexDigitChar (n % 10)]

/-- Decimal digits of `n`, most significant first, no padding
(the digit run of Go `strconv.FormatInt`). -/
def natDec (n : Nat) : Str := natDecAux (n + 1) n

theorem natDecAux_congr {f1 f2 n : Nat} (h1 : n < f1) (h2 : n < f2) :
    natDecAux f1 n = natDecAux f2 n := by
  induction f1 generalizing f2 n with
  | zero => omega
  | succ f1 ih =>
    cases f2 with
    | zero => omega
    | succ f2 =>
      simp only [natDecAux]
      by_cases h : n < 10
      · simp [h]
      · simp only [if_neg h]
        have hd : n / 10 < n := Nat.div_lt_self (by omega) (by omega)
        have ha : n / 10 < f1 := by omega
        have hb : n / 10 < f2 := by omega
        rw [ih ha hb]

/-- The recurrence satisfied by `natDec`. -/
theorem natDec_eq (n : Nat) :
    natDec n =
      if n < 10 then [hexDigitChar n]
      else natDec (n / 10) ++ [hexDigitChar (n % 10)] := by
  unfold natDec
  simp only [natDecAux]
  by_cases h : n < 10
  · simp [h]
  · simp only [if_neg h]
    have hd : n / 10 < n := Nat.div_lt_self (by omega) (by omega)
    have ha : n / 10 < n := hd
    have hb : n / 10 < n / 10 + 1 := by omega
    rw [natDecAux_congr ha hb]
    simp only [natDecAux]

/-- Go `strconv.FormatInt v 10`: minus sign followed by the decimal
digits of the magnitude. -/
def intDec (v : Int) : Str :=
  if v < 0 then '-' :: natDec (-v).toNat else natDec v.toNat

/-- Fold a run of decimal digit characters; `none` on empty input or on
the first non-digit. -/
def parseDecAux (acc : Nat) : Str → Option Nat
  | [] => some acc
  | c :: r =>
    match decVal c with
    | some d => parseDecAux (acc * 10 + d) r
    | none => none

/-- Parse a non-empty run of decimal digits. -/
def parseDecNat : Str → Option Nat
  | [] => none
  | c :: r => parseDecAux 0 (c :: r)

/-- Go `strconv.ParseInt s 10 64`: optional sign, non-empty decimal digit
run, value within the signed 64-bit range. -/
def parseGoInt64 (s : Str) : Option Int :=
  match s with
  | [] => none
  | c :: r =>
    if c = '-' then
      (parseDecNat r).bind fun n =>
        if n ≤ 2 ^ 63 then some (-(n : Int)) else none
    else if c = '+' then
      (parseDecNat r).bind fun n =>
        if n ≤ 2 ^ 63 - 1 then some ((n : Int)) else none
    else
      (parseDecNat (c :: r)).bind fun n =>
        if n ≤ 2 ^ 63 - 1 then some ((n : Int)) else none

/-! ## The ChunkPos position codec (`vcdbtree.go`, lines 30-57) -/

/-- `chunkXMask`: 21 bits for chunkX (bits 0-20). -/
def chunkXMask : Nat := 0x1FFFFF

/-- `chunkZShift`: chunkZ starts at bit 27. -/
def chunkZShift : Nat := 27

/-- `chunkZMask`: 21 bits for chunkZ (bits 27-47). -/
def chunkZMask : Nat := 0x1FFFFF

/-- `signBit21`: sign bit for a 21-bit signed integer. -/
def signBit21 : Nat := 0x100000

/-- The unsigned 64-bit bit pattern of `^int64(0x1FFFFF)`, the mask the
Go code ORs in to sign extend from 21 bits. -/
def signExtend21n : Nat := 2 ^ 64 - 2 ^ 21

/-- Two's-complement 64-bit bit pattern of a signed value
(Go's `uint64 v` conversion). -/
def toUInt64n (v : Int) : Nat := (v % (2 ^ 64 : Int)).toNat

/-- Signed value of a 64-bit two's-complement bit pattern
(Go's `int64 n` conversion from `uint64`). -/
def toInt64 (n : Nat) : Int :=
  if n % 2 ^ 64 < 2 ^ 63 then ((n % 2 ^ 64 : Nat) : Int)
  else ((n % 2 ^ 64 : Nat) : Int) - 2 ^ 64

/-- Signed value of the low 32 bits of a bit pattern
(Go's `int32 raw` truncating conversion). -/
def toInt32 (n : Nat) : Int :=
  if n % 2 ^ 32 < 2 ^ 31 then ((n % 2 ^ 32 : Nat) : Int)
  else ((n % 2 ^ 32 : Nat) : Int) - 2 ^ 32

/-- Arithmetic (sign-propagating) right shift of a 64-bit pattern, which
is what Go's `>>` does on an `int64`. -/
def sar64 (n k : Nat) : Nat :=
  if n < 2 ^ 63 then n >>> k
  else (n >>> k) ||| (2 ^ 64 - 2 ^ (64 - k))

/-- `extractChunkX` extracts the signed chunkX coordinate from a ChunkPos
position: mask the low 21 bits, OR in the sign-extension mask when the
21-bit sign bit is set, convert to `int32`. -/
def extractChunkX (position : Int) : Int :=
  let raw := toUInt64n position &&& chunkXMask
  let raw2 := if raw &&& signBit21 ≠ 0 then raw ||| signExtend21n else raw
  toInt32 raw2

/-- `extractChunkZ` extracts the signed chunkZ coordinate: shift right by
27 (arithmetic shift on `int64`), mask 21 bits, sign extend, convert. -/
def extractChunkZ (position : Int) : Int :=
  let raw := sar64 (toUInt64n position) chunkZShift &&& chunkZMask
  let raw2 := if raw &&& signBit21 ≠ 0 then raw ||| signExtend21n else raw
  toInt32 raw2

/-- The `.bin` filename extension. -/
def binExt : Str := ('.' :: 'b' :: 'i' :: 'n' :: [])

/-- `GetShardedPath` (without the base directory, which merely prefixes
the result): `<tablePlural>/<chunkZ>/<chunkX>/<position hex>.bin`. -/
def getShardedPath (tablePlural : Str) (position : Int) : FPath :=
  [tablePlural, intDec (extractChunkZ position), intDec (extractChunkX position),
   hexFormat16 (toUInt64n position) ++ binExt]

/-- Render a path the way filepath.Join does, for stating claims about
literal path strings. -/
def pathToString (p : FPath) : String :=
  String.mk (List.intercalate ['/'] p)

/-! ## Round-trip lemmas for digit formatting -/

theorem hexVal_hexDigitChar {m : Nat} (h : m < 16) :
    hexVal (hexDigitChar m) = some m := by
  interval_cases m <;> decide

theorem decVal_hexDigitChar {m : Nat} (h : m < 10) :
    decVal (hexDigitChar m) = some m := by
  interval_cases m <;> decide

theorem parseHexAux_append (acc : Nat) (xs ys : Str) :
    parseHexAux acc (xs ++ ys) =
      match parseHexAux acc xs with
      | some a => parseHexAux a ys
      | none => none := by
  induction xs generalizing acc with
  | nil => simp [parseHexAux]
  | cons c t ih =>
    simp only [List.cons_append, parseHexAux]
    cases hexVal c with
    | some d => exact ih _
    | none => rfl

theorem hexFormat_length (k n : Nat) : (hexFormat k n).length = k := by
  induction k generalizing n with
  | zero => rfl
  | succ k ih => simp [hexFormat, ih]

theorem parseHexAux_hexFormat (k n acc : Nat) :
    parseHexAux acc (hexFormat k n) = some (acc * 16 ^ k + n % 16 ^ k) := by
  induction k generalizing n acc with
  | zero => simp [hexFormat, parseHexAux, Nat.mod_one]
  | succ k ih =>
    rw [hexFormat, parseHexAux_append, ih]
    simp only [parseHexAux, hexVal_hexDigitChar (Nat.mod_lt n (by omega))]
    congr 1
    have hsplit : n % (16 * 16 ^ k) = n % 16 + 16 * (n / 16 % 16 ^ k) := Nat.mod_mul
    have hpow : (16 : Nat) ^ (k + 1) = 16 * 16 ^ k := by ring
    rw [hpow, hsplit]
    ring

theorem parseHexNat_hexFormat16 {n : Nat} (h : n < 2 ^ 64) :
    parseHexNat (hexFormat16 n) = some n := by
  have hlen : (hexFormat 16 n).length = 16 := hexFormat_length 16 n
  have hparse := parseHexAux_hexFormat 16 n 0
  have hmod : n % 16 ^ 16 = n := Nat.mod_eq_of_lt (by
    have : (2 : Nat) ^ 64 = 16 ^ 16 := by norm_num
    omega)
  rw [hmod] at hparse
  unfold hexFormat16
  cases hfmt : hexFormat 16 n with
  | nil => rw [hfmt] at hlen; simp at hlen
  | cons c r =>
    rw [hfmt] at hparse
    simpa [parseHexNat] using hparse

theorem parseDecAux_append (acc : Nat) (xs ys : Str) :
    parseDecAux acc (xs ++ ys) =
      match parseDecAux acc xs with
      | some a => parseDecAux a ys
      | none => none := by
  induction xs generalizing acc with
  | nil => simp [parseDecAux]
  | cons c t ih =>
    simp only [List.cons_append, parseDecAux]
    cases decVal c with
    | some d => exact ih _
    | none => rfl

theorem natDec_ne_nil (n : Nat) : natDec n ≠ [] := by
  rw [natDec_eq]
  by_cases h : n < 10
  · simp [h]
  · simp [h, List.append_eq_nil]

theorem natDec_unfold_ge {n : Nat} (h : ¬n < 10) :
    natDec n = natDec (n / 10) ++ [hexDigitChar (n % 10)] := by
  conv_lhs => rw [natDec_eq]
  simp [h]

theorem parseDecAux_natDec (n acc : Nat) :
    parseDecAux acc (natDec n) = some (acc * 10 ^ (natDec n).length + n) := by
  induction n using Nat.strong_induction_on generalizing acc with
  | _ n ih =>
    by_cases h : n < 10
    · rw [natDec_eq, if_pos h]
      simp [parseDecAux, decVal_hexDigitChar h]
    · have hrec : n / 10 < n := Nat.div_lt_self (by omega) (by omega)
      have hL : (natDec n).length = (natDec (n / 10)).length + 1 := by
        rw [natDec_unfold_ge h]; simp
      rw [natDec_unfold_ge h, parseDecAux_append, ih _ hrec]
      simp only [parseDecAux, decVal_hexDigitChar (Nat.mod_lt n (by omega))]
      rw [← natDec_unfold_ge h, hL]
      rw [pow_succ, ← mul_assoc]
      have hval : (acc * 10 ^ (natDec (n / 10)).length + n / 10) * 10 + n % 10
          = acc * 10 ^ (natDec (n / 10)).length * 10 + n := by
        generalize acc * 10 ^ (natDec (n / 10)).length = u
        omega
      rw [hval]

theorem parseDecNat_natDec (n : Nat) : parseDecNat (natDec n) = some n := by
  have h := parseDecAux_natDec n 0
  cases hd : natDec n with
  | nil => exact absurd hd (natDec_ne_nil n)
  | cons c r =>
    rw [hd] at h
    simpa [parseDecNat] using h

theorem natDec_head_digit (n : Nat) :
    ∃ c r, natDec n = c :: r ∧ (decVal c).isSome := by
  induction n using Nat.strong_induction_on with
  | _ n ih =>
    by_cases h : n < 10
    · refine ⟨hexDigitChar n, [], by rw [natDec_eq, if_pos h], ?_⟩
      rw [decVal_hexDigitChar h]; rfl
    · obtain ⟨c0, r0, hc0, hval⟩ := ih (n / 10) (Nat.div_lt_self (by omega) (by omega))
      refine ⟨c0, r0 ++ [hexDigitChar (n % 10)], ?_, hval⟩
      rw [natDec_unfold_ge h, hc0]
      rfl

theorem parseGoInt64_intDec {v : Int}
    (hlo : -(2 ^ 63 : Int) ≤ v) (hhi : v < 2 ^ 63) :
    parseGoInt64 (intDec v) = some v := by
  unfold intDec
  by_cases hneg : v < 0
  · rw [if_pos hneg]
    have hstep : parseGoInt64 ('-' :: natDec (-v).toNat) =
        (parseDecNat (natDec (-v).toNat)).bind fun n =>
          if n ≤ 2 ^ 63 then some (-(n : Int)) else none := by
      simp [parseGoInt64]
    rw [hstep, parseDecNat_natDec]
    have hbound : (-v).toNat ≤ 2 ^ 63 := by omega
    simp only [Option.some_bind, if_pos hbound]
    congr 1
    omega
  · rw [if_neg hneg]
    obtain ⟨c, r, hcr, hval⟩ := natDec_head_digit v.toNat
    have hc1 : c ≠ '-' := by
      intro hc
      rw [hc] at hval
      exact absurd hval (by decide)
    have hc2 : c ≠ '+' := by
      intro hc
      rw [hc] at hval
      exact absurd hval (by decide)
    have hstep : parseGoInt64 (c :: r) =
        (parseDecNat (c :: r)).bind fun n =>
          if n ≤ 2 ^ 63 - 1 then some ((n : Int)) else none := by
      simp [parseGoInt64, hc1, hc2]
    rw [hcr, hstep, ← hcr, parseDecNat_natDec]
    have hbound : v.toNat ≤ 2 ^ 63 - 1 := by omega
    simp only [Option.some_bind, if_pos hbound]
    congr 1
    omega

/-! ## Correctness of the position codec -/

theorem decodeBranch {e : Nat} (he : e < 2 ^ 21) :
    toInt32 (if e &&& signBit21 ≠ 0 then e ||| signExtend21n else e)
      = if e < 2 ^ 20 then (e : Int) else (e : Int) - 2 ^ 21 := by
  have hsb : signBit21 = 2 ^ 20 := by norm_num [signBit21]
  by_cases hlt : e < 2 ^ 20
  · have htb : e.testBit 20 = false := Nat.testBit_lt_two_pow hlt
    have hand : e &&& signBit21 = 0 := by
      rw [hsb, Nat.and_two_pow, htb]
      rfl
    rw [if_pos hlt, if_neg (by simp [hand])]
    unfold toInt32
    have h32 : e % 2 ^ 32 = e := Nat.mod_eq_of_lt (by omega)
    rw [h32, if_pos (by omega)]
  · have htb : e.testBit 20 = true := by
      rw [Nat.testBit_to_div_mod]
      have hdiv : e / 2 ^ 20 = 1 := by omega
      norm_num at hdiv
      simp [hdiv]
    have hand : e &&& signBit21 = 2 ^ 20 := by
      rw [hsb, Nat.and_two_pow, htb]
      simp
    rw [if_neg hlt, if_pos (by simp [hand])]
    have hor : e ||| signExtend21n = 2 ^ 21 * (2 ^ 43 - 1) + e := by
      have hx : signExtend21n = 2 ^ 21 * (2 ^ 43 - 1) := by norm_num [signExtend21n]
      rw [hx, Nat.lor_comm]
      exact (Nat.mul_add_lt_is_or he _).symm
    rw [hor]
    unfold toInt32
    have hmod : (2 ^ 21 * (2 ^ 43 - 1) + e) % 2 ^ 32 = 2 ^ 32 - 2 ^ 21 + e := by
      omega
    rw [hmod, if_neg (by omega)]
    push_cast
    omega

theorem sar64_masked (n : Nat) :
    sar64 n chunkZShift &&& chunkZMask = (n >>> 27) &&& chunkZMask := by
  unfold sar64 chunkZShift
  by_cases h : n < 2 ^ 63
  · rw [if_pos h]
  · rw [if_neg h]
    have hmask : chunkZMask = 2 ^ 21 - 1 := by norm_num [chunkZMask]
    rw [hmask, Nat.and_distrib_right]
    have hzero : (2 ^ 64 - 2 ^ (64 - 27)) &&& (2 ^ 21 - 1) = 0 := by
      rw [Nat.and_pow_two_sub_one_eq_mod]
      norm_num
    rw [hzero, Nat.or_zero]

/-- The 21-bit two's-complement encoding of a signed value, used to state
which bit pattern a position field holds. -/
def enc21 (v : Int) : Nat := (v % (2 ^ 21 : Int)).toNat

theorem extractChunkX_field {v position : Int}
    (hlo : -(2 ^ 20 : Int) ≤ v) (hhi : v < 2 ^ 20)
    (hfield : toUInt64n position &&& chunkXMask = enc21 v) :
    extractChunkX position = v := by
  have he : enc21 v < 2 ^ 21 := by
    unfold enc21; omega
  simp only [extractChunkX, hfield]
  rw [decodeBranch he]
  unfold enc21
  by_cases hv : 0 ≤ v
  · rw [if_pos (by omega)]
    omega
  · rw [if_neg (by omega)]
    omega

theorem extractChunkZ_field {v position : Int}
    (hlo : -(2 ^ 20 : Int) ≤ v) (hhi : v < 2 ^ 20)
    (hfield : (toUInt64n position >>> 27) &&& chunkZMask = enc21 v) :
    extractChunkZ position = v := by
  have he : enc21 v < 2 ^ 21 := by
    unfold enc21; omega
  simp only [extractChunkZ, sar64_masked, hfield]
  rw [decodeBranch he]
  unfold enc21
  by_cases hv : 0 ≤ v
  · rw [if_pos (by omega)]
    omega
  · rw [if_neg (by omega)]
    omega

/-! ## The five-table data model and the vcdbtree layout -/

/-- Root directory for the chunk table. -/
def chunksDir : Str := ("chunks").data

/-- Root directory for the mapchunk table. -/
def mapchunksDir : Str := ("mapchunks").data

/-- Root directory for the mapregion table. -/
def mapregionsDir : Str := ("mapregions").data

/-- Root directory for the gamedata table. -/
def gamedataDir : Str := ("gamedata").data

/-- Root directory for the playerdata table. -/
def playerdataDir : Str := ("playerdata").data

/-- The five managed root directories (`subdirs` in `cleanupStaleFiles`,
`rootDirs` in `isRootSubdir`). -/
def managedRoots : List Str :=
  [chunksDir, mapchunksDir, mapregionsDir, gamedataDir, playerdataDir]

/-- `sanitizePlayerUID` converts a base64 playeruid to filesystem-safe
base64url format: `+` to `-`, `/` to `_`, trailing `=` removed. -/
def sanitizePlayerUID (playeruid : Str) : Str :=
  trimRightEqs (replaceAllChar (replaceAllChar playeruid '+' '-') '/' '_')

/-- `unsanitizePlayerUID` converts a base64url-safe string back:
`-` to `+`, `_` to `/` (stripped padding is not restored). -/
def unsanitizePlayerUID (safeUID : Str) : Str :=
  replaceAllChar (replaceAllChar safeUID '-' '+') '_' '/'

/-- The source savegame database: the five tables with their key and
nullable blob columns.  `chunk`, `mapchunk`, `mapregion` are keyed by the
packed 64-bit position, `gamedata` by `savegameid`, `playerdata` rows
carry a `playeruid` (the surrogate `playerid` is not represented). -/
structure DB where
  chunk : List (Int × Option Blob)
  mapchunk : List (Int × Option Blob)
  mapregion : List (Int × Option Blob)
  gamedata : List (Int × Option Blob)
  playerdata : List (Str × Option Blob)

/-- Filename of a gamedata row (`fmt.Sprintf "%d.bin" savegameid`). -/
def gamedataFileName (savegameid : Int) : Str := intDec savegameid ++ binExt

/-- Filename of a playerdata row (`safeUID + ".bin"`). -/
def playerdataFileName (uid : Str) : Str := sanitizePlayerUID uid ++ binExt

/-- The files written by `splitShardedTable`: one file per non-null row at
its sharded path, content the row's blob verbatim. -/
def shardItems (subdir : Str) (rows : List (Int × Option Blob)) :
    List (FPath × Blob) :=
  rows.filterMap fun r =>
    match r.2 with
    | some d => some (getShardedPath subdir r.1, d)
    | none => none

/-- The files written by `splitGamedata`. -/
def gameItems (rows : List (Int × Option Blob)) : List (FPath × Blob) :=
  rows.filterMap fun r =>
    match r.2 with
    | some d => some ([gamedataDir, gamedataFileName r.1], d)
    | none => none

/-- The files written by `splitPlayerdata`; rows with an empty
`playeruid` or a null blob are skipped. -/
def playerItems (rows : List (Str × Option Blob)) : List (FPath × Blob) :=
  rows.filterMap fun r =>
    if r.1 = [] then none
    else
      match r.2 with
      | some d => some ([playerdataDir, playerdataFileName r.1], d)
      | none => none

/-- A directory tree as the list of its files.  The `Combine` functions
visit entries in list order (standing in for `filepath.Walk`'s lexical
order; the claims proved below are order independent). -/
abbrev VTree := List (FPath × Blob)

/-- `Split`: the tree of files produced by splitting `db` into a fresh
output directory — one file per non-null row of each table, at the
deterministic path of that row.  (Two rows mapping to the same path would
overwrite one another; the round-trip theorem's distinctness hypotheses
rule that out, and path distinctness is automatic for the keyed tables.) -/
def Split (db : DB) : VTree :=
  shardItems chunksDir db.chunk ++ shardItems mapchunksDir db.mapchunk ++
    shardItems mapregionsDir db.mapregion ++ gameItems db.gamedata ++
    playerItems db.playerdata

/-- `INSERT OR REPLACE` into a keyed table: any previous row with the
same key is replaced. -/
def upsert {α : Type} [DecidableEq α] (t : List (α × Blob)) (k : α) (v : Blob) :
    List (α × Blob) :=
  (k, v) :: t.filter fun e => !decide (e.1 = k)

/-- `combineShardedTable`: walk the entries under `subdir`, skip files not
ending in `.bin`, decode the 16-hex-digit position from the filename
(errors on a wrong length or a non-hex digit), `INSERT OR REPLACE` each
row.  A missing subdirectory simply yields no entries. -/
def combineShardedRows (subdir : Str) :
    VTree → List (Int × Blob) → Except String (List (Int × Blob))
  | [], acc => .ok acc
  | (p, d) :: rest, acc =>
    if p.head? = some subdir then
      match p.getLast? with
      | none => combineShardedRows subdir rest acc
      | some name =>
        if endsWithStr binExt name then
          let hexStr := trimSuffixStr binExt name
          if hexStr.length = 16 then
            match parseHexNat hexStr with
            | some u => combineShardedRows subdir rest (upsert acc (toInt64 u) d)
            | none => .error ("failed to parse hex")
          else .error ("invalid hex length")
        else combineShardedRows subdir rest acc
    else combineShardedRows subdir rest acc

/-- `combineGamedata`: read the flat `gamedata` directory (direct children
only), skip entries without the `.bin` suffix, skip filenames whose stem
does not parse as a decimal 64-bit integer, `INSERT OR REPLACE` the rest. -/
def combineGamedataRows :
    VTree → List (Int × Blob) → Except String (List (Int × Blob))
  | [], acc => .ok acc
  | (p, d) :: rest, acc =>
    match p with
    | [root, name] =>
      if root = gamedataDir then
        if endsWithStr binExt name then
          match parseGoInt64 (trimSuffixStr binExt name) with
          | some id => combineGamedataRows rest (upsert acc id d)
          | none => combineGamedataRows rest acc
        else combineGamedataRows rest acc
      else combineGamedataRows rest acc
    | _ => combineGamedataRows rest acc

/-- `combinePlayerdata`: read the flat `playerdata` directory, skip
non-`.bin` entries, un-sanitize the stem and plain-`INSERT` the row (the
autoincrement surrogate id is not represented). -/
def combinePlayerdataRows :
    VTree → List (Str × Blob) → Except String (List (Str × Blob))
  | [], acc => .ok acc
  | (p, d) :: rest, acc =>
    match p with
    | [root, name] =>
      if root = playerdataDir then
        if endsWithStr binExt name then
          combinePlayerdataRows rest
            (acc ++ [(unsanitizePlayerUID (trimSuffixStr binExt name), d)])
        else combinePlayerdataRows rest acc
      else combinePlayerdataRows rest acc
    | _ => combinePlayerdataRows rest acc

/-- The database produced by `Combine`: every blob column is non-null.
The fixed schema creation, page size and final `VACUUM` are not modelled
(they do not affect row content). -/
structure CombinedDB where
  chunk : List (Int × Blob)
  mapchunk : List (Int × Blob)
  mapregion : List (Int × Blob)
  gamedata : List (Int × Blob)
  playerdata : List (Str × Blob)
deriving DecidableEq

/-- `Combine`: reconstruct the five tables from a vcdbtree directory,
returning the first table error encountered. -/
def Combine (tree : VTree) : Except String CombinedDB :=
  match combineShardedRows chunksDir tree [] with
  | .error e => .error e
  | .ok c =>
    match combineShardedRows mapchunksDir tree [] with
    | .error e => .error e
    | .ok mc =>
      match combineShardedRows mapregionsDir tree [] with
      | .error e => .error e
      | .ok mr =>
        match combineGamedataRows tree [] with
        | .error e => .error e
        | .ok g =>
          match combinePlayerdataRows tree [] with
          | .error e => .error e
          | .ok p => .ok ⟨c, mc, mr, g, p⟩

/-! ## Filesystem model and `SplitWithCache` -/

/-- A file on disk: its byte content and its modification time. -/
structure FsFile where
  data : Blob
  mtime : Nat
deriving DecidableEq

/-- The filesystem under the cache root, as a finite map from paths to
files (association list; `statFile` takes the first binding). -/
abbrev FS := List (FPath × FsFile)

/-- `os.Stat` / lookup of a file. -/
def statFile (fs : FS) (p : FPath) : Option FsFile :=
  (fs.find? fun e => decide (e.1 = p)).map fun e => e.2

/-- `os.WriteFile`: (over)write `p` with content `d`, stamping the
current clock value `now` as its modification time. -/
def writeFile (fs : FS) (p : FPath) (d : Blob) (now : Nat) : FS :=
  (p, ⟨d, now⟩) :: fs.filter fun e => !decide (e.1 = p)

/-- `fileMatchesContent` checks that a file exists at `p` and has exactly
the content `data`: a size comparison first, then a full byte
comparison. -/
def fileMatchesContent (fs : FS) (p : FPath) (data : Blob) : Bool :=
  match statFile fs p with
  | none => false
  | some f => decide (f.data.length = data.length) && decide (f.data = data)

/-- Result of one caching split pass: the written/skipped counters, the
accumulated `expectedFiles` set (as a list of paths) and the filesystem. -/
structure CacheRun where
  written : Nat
  skipped : Nat
  expected : List FPath
  fs : FS
deriving DecidableEq

/-- The common per-file loop of the `...WithCache` table splitters: record
the path as expected, skip the file when `fileMatchesContent` holds
(leaving it untouched), otherwise write it. -/
def processItems (now : Nat) : List (FPath × Blob) → List FPath → FS → CacheRun
  | [], exp, fs => ⟨0, 0, exp, fs⟩
  | (p, d) :: rest, exp, fs =>
    if fileMatchesContent fs p d then
      let r := processItems now rest (p :: exp) fs
      ⟨r.written, r.skipped + 1, r.expected, r.fs⟩
    else
      let r := processItems now rest (p :: exp) (writeFile fs p d now)
      ⟨r.written + 1, r.skipped, r.expected, r.fs⟩

/-- `splitShardedTableWithCache`: stream the rows of a position table,
skip null blobs, and cache-write each remaining row's file. -/
def splitShardedTableWithCache (now : Nat) (subdir : Str) :
    List (Int × Option Blob) → List FPath → FS → CacheRun
  | [], exp, fs => ⟨0, 0, exp, fs⟩
  | (_, none) :: rest, exp, fs => splitShardedTableWithCache now subdir rest exp fs
  | (pos, some d) :: rest, exp, fs =>
    let p := getShardedPath subdir pos
    if fileMatchesContent fs p d then
      let r := splitShardedTableWithCache now subdir rest (p :: exp) fs
      ⟨r.written, r.skipped + 1, r.expected, r.fs⟩
    else
      let r := splitShardedTableWithCache now subdir rest (p :: exp) (writeFile fs p d now)
      ⟨r.written + 1, r.skipped, r.expected, r.fs⟩

/-- `splitGamedataWithCache`: the same loop over the gamedata table. -/
def splitGamedataWithCache (now : Nat) :
    List (Int × Option Blob) → List FPath → FS → CacheRun
  | [], exp, fs => ⟨0, 0, exp, fs⟩
  | (_, none) :: rest, exp, fs => splitGamedataWithCache now rest exp fs
  | (id, some d) :: rest, exp, fs =>
    let p := [gamedataDir, gamedataFileName id]
    if fileMatchesContent fs p d then
      let r := splitGamedataWithCache now rest (p :: exp) fs
      ⟨r.written, r.skipped + 1, r.expected, r.fs⟩
    else
      let r := splitGamedataWithCache now rest (p :: exp) (writeFile fs p d now)
      ⟨r.written + 1, r.skipped, r.expected, r.fs⟩

/-- `splitPlayerdataWithCache`: the same loop over the playerdata table;
rows with an empty `playeruid` or a null blob are skipped. -/
def splitPlayerdataWithCache (now : Nat) :
    List (Str × Option Blob) → List FPath → FS → CacheRun
  | [], exp, fs => ⟨0, 0, exp, fs⟩
  | (uid, od) :: rest, exp, fs =>
    if uid = [] then splitPlayerdataWithCache now rest exp fs
    else
      match od with
      | none => splitPlayerdataWithCache now rest exp fs
      | some d =>
        let p := [playerdataDir, playerdataFileName uid]
        if fileMatchesContent fs p d then
          let r := splitPlayerdataWithCache now rest (p :: exp) fs
          ⟨r.written, r.skipped + 1, r.expected, r.fs⟩
        else
          let r := splitPlayerdataWithCache now rest (p :: exp) (writeFile fs p d now)
          ⟨r.written + 1, r.skipped, r.expected, r.fs⟩

/-- The filename component the `filepath.Walk` callback inspects
(`info.Name()`, the last path component). -/
def lastNameD (p : FPath) : Str :=
  match p.getLast? with
  | some n => n
  | none => []

/-- Whether `cleanupStaleFiles` deletes the file at path `p` while
scanning root `sub`: the file lies under `sub`, its name ends in `.bin`,
and its path is not in the expected set. -/
def staleIn (sub : Str) (exp : List FPath) (p : FPath) : Bool :=
  decide (p.head? = some sub) && endsWithStr binExt (lastNameD p) &&
    !decide (p ∈ exp)

/-- `cleanupStaleFiles`: for each of the five managed roots, walk the
files under it and remove every `.bin` file whose path is not expected.
(`cleanupEmptyDirs` then prunes empty directories, which the file-level
model does not represent.) -/
def cleanupStaleFiles (fs : FS) (exp : List FPath) : FS :=
  managedRoots.foldl (fun acc sub => acc.filter fun e => !staleIn sub exp e.1) fs

/-- `SplitWithCache`: cache-split the five tables in source order,
accumulating the expected-file set, then delete stale files.  Returns the
total written and skipped counts and the final filesystem. -/
def SplitWithCache (db : DB) (fs : FS) (now : Nat) : CacheRun :=
  let r1 := splitShardedTableWithCache now chunksDir db.chunk [] fs
  let r2 := splitShardedTableWithCache now mapchunksDir db.mapchunk r1.expected r1.fs
  let r3 := splitShardedTableWithCache now mapregionsDir db.mapregion r2.expected r2.fs
  let r4 := splitGamedataWithCache now db.gamedata r3.expected r3.fs
  let r5 := splitPlayerdataWithCache now db.playerdata r4.expected r4.fs
  { written := r1.written + r2.written + r3.written + r4.written + r5.written
    skipped := r1.skipped + r2.skipped + r3.skipped + r4.skipped + r5.skipped
    expected := r5.expected
    fs := cleanupStaleFiles r5.fs r5.expected }

/-! ## PlayerChecker (`player_checker.go` in package backup) -/

/-- `serverEventMarker`, the exact string counted for the single-marker
check. -/
def serverEventMarker : Str := ("[Server Event]").data

/-- `serverChatPrefix`, the chat marker whose presence anywhere in the
line makes it ignored. -/
def serverChatPrefix : Str := ("[Server Chat]").data

/-- Suffix required by `playerJoinPattern`. -/
def joinSuffix : Str := ("joins.").data

/-- Suffix required by `playerLeavePattern`. -/
def leaveSuffix : Str := ("left.").data

/-- Match of the anchored regular expression
`\[Server Event\].*joins\.$` against a single newline-free log line:
some occurrence of the marker is followed (after arbitrary characters)
by `joins.` at the end of the line.  The leftmost marker occurrence
leaves the longest remainder, so testing it suffices. -/
def joinMatch (line : Str) : Bool :=
  match restAfterFirst serverEventMarker line with
  | some rest => endsWithStr joinSuffix rest
  | none => false

/-- Match of `\[Server Event\].*left\.$`, as `joinMatch`. -/
def leaveMatch (line : Str) : Bool :=
  match restAfterFirst serverEventMarker line with
  | some rest => endsWithStr leaveSuffix rest
  | none => false

/-- The mutable state of a `PlayerChecker` (the mutex only serializes
access and is not represented). -/
structure PlayerChecker where
  playerCount : Int
  playersOnlineAtLastCheck : Bool
deriving DecidableEq

/-- A fresh `PlayerChecker` (Go zero value). -/
def PlayerChecker.init : PlayerChecker := ⟨0, false⟩

/-- `HandleOutput`: ignore chat lines; ignore lines without exactly one
`[Server Event]` marker; increment the count on a join match, decrement
(clamping at zero) on a leave match. -/
def handleOutput (line : Str) (p : PlayerChecker) : PlayerChecker :=
  if containsStr serverChatPrefix line then p
  else if countSub serverEventMarker line ≠ 1 then p
  else if joinMatch line then { p with playerCount := p.playerCount + 1 }
  else if leaveMatch line then
    let c := p.playerCount - 1
    { p with playerCount := if c < 0 then 0 else c }
  else p

/-- `ShouldBackup`: report whether a backup should run and update the
`playersOnlineAtLastCheck` state. -/
def shouldBackup (p : PlayerChecker) : Bool × PlayerChecker :=
  let playersOnlineNow := decide (p.playerCount > 0)
  let werePlayersOnlineBefore := p.playersOnlineAtLastCheck
  let p2 := { p with playersOnlineAtLastCheck := playersOnlineNow }
  if playersOnlineNow then (true, p2)
  else if werePlayersOnlineBefore && !playersOnlineNow then (true, p2)
  else (false, p2)

/-! ## `Manager.ensureRepoInitialized` (`manager.go`, lines 559-586) -/

/-- The observable result of `runCommandWithOutput` for one subprocess:
its exit code, and whether a non-nil error was returned alongside it. -/
structure CmdResult where
  exitCode : Int
  errNonNil : Bool
deriving DecidableEq

/-- `ensureRepoInitialized`, as a function of the probe result
(`restic cat config`) and the init result (`restic init`): exit 0 skips
initialization; exit 10 runs init, which must return no error and exit 0;
any other exit code is an error. -/
def ensureRepoInitialized (probe initRes : CmdResult) : Except String Unit :=
  if probe.exitCode = 0 then .ok ()
  else if probe.exitCode = 10 then
    if initRes.errNonNil then .error ("restic init failed")
    else if initRes.exitCode ≠ 0 then .error ("restic init failed with exit code")
    else .ok ()
  else .error ("restic cat config failed")

/-! ## Basic string lemmas -/

theorem startsWithStr_nil (s : Str) : startsWithStr s [] = true := by
  cases s <;> rfl

theorem startsWithStr_append_self (m t : Str) :
    startsWithStr (m ++ t) m = true := by
  induction m with
  | nil => exact startsWithStr_nil _
  | cons c m ih => simp [startsWithStr, ih]

theorem endsWithStr_append_self (suf x : Str) :
    endsWithStr suf (x ++ suf) = true := by
  unfold endsWithStr
  rw [List.reverse_append]
  exact startsWithStr_append_self _ _

theorem trimSuffixStr_append (suf x : Str) : trimSuffixStr suf (x ++ suf) = x := by
  unfold trimSuffixStr
  rw [endsWithStr_append_self]
  simp [List.take_left']

/-! ## C5: the position codec decodes 21-bit two's-complement fields -/

set_option maxRecDepth 40000 in
/-- **C5.** For every signed 21-bit value `v` and every position whose
bits 0-20 (respectively bits 27-47) hold the 21-bit two's-complement
encoding of `v`, `extractChunkX` (respectively `extractChunkZ`) returns
`v`; and at position `0x00000012abff341c` the decoded coordinates are
`chunkZ = 597`, `chunkX = -52196`, with sharded path components
`chunks`, `597`, `-52196`, `00000012abff341c.bin`. -/
theorem c5_position_codec :
    (∀ v position : Int, -(2 ^ 20 : Int) ≤ v → v < 2 ^ 20 →
        toUInt64n position &&& chunkXMask = enc21 v → extractChunkX position = v) ∧
    (∀ v position : Int, -(2 ^ 20 : Int) ≤ v → v < 2 ^ 20 →
        (toUInt64n position >>> 27) &&& chunkZMask = enc21 v →
          extractChunkZ position = v) ∧
    extractChunkZ 0x00000012abff341c = 597 ∧
    extractChunkX 0x00000012abff341c = -52196 ∧
    pathToString (getShardedPath ("chunks").data 0x00000012abff341c) =
      "chunks/597/-52196/00000012abff341c.bin" :=
  ⟨fun _ _ h1 h2 h3 => extractChunkX_field h1 h2 h3,
   fun _ _ h1 h2 h3 => extractChunkZ_field h1 h2 h3,
   by decide, by decide, by decide⟩

set_option maxRecDepth 40000 in
theorem c5_position_codec_witness :
    ((-(2 ^ 20 : Int) ≤ -52196) ∧ ((-52196 : Int) < 2 ^ 20) ∧
      toUInt64n 0x00000012abff341c &&& chunkXMask = enc21 (-52196) ∧
      extractChunkX 0x00000012abff341c = -52196) ∧
    ((toUInt64n 0x00000012abff341c >>> 27) &&& chunkZMask = enc21 597 ∧
      extractChunkZ 0x00000012abff341c = 597) :=
  ⟨⟨by decide, by decide, by decide,
    c5_position_codec.1 (-52196) 0x00000012abff341c (by decide) (by decide) (by decide)⟩,
   ⟨by decide,
    c5_position_codec.2.1 597 0x00000012abff341c (by decide) (by decide) (by decide)⟩⟩

/-! ## C9: repository initialization before the first snapshot -/

/-- Whether an `Except` result is a success. -/
def exceptOk {e a : Type} : Except e a → Bool
  | .ok _ => true
  | .error _ => false

/-- **C9.** A probe exit code of 0 skips initialization (the result does
not depend on the init outcome) and succeeds; exit code 10 runs `restic
init` and succeeds exactly when that succeeds (no error, exit 0); any
other probe exit code fails the step. -/
theorem c9_ensure_repo_initialized :
    (∀ probe i1 i2 : CmdResult, probe.exitCode = 0 →
        ensureRepoInitialized probe i1 = .ok () ∧
        ensureRepoInitialized probe i1 = ensureRepoInitialized probe i2) ∧
    (∀ probe initRes : CmdResult, probe.exitCode = 10 →
        (exceptOk (ensureRepoInitialized probe initRes) = true ↔
          initRes.errNonNil = false ∧ initRes.exitCode = 0)) ∧
    (∀ probe initRes : CmdResult, probe.exitCode ≠ 0 → probe.exitCode ≠ 10 →
        exceptOk (ensureRepoInitialized probe initRes) = false) := by
  refine ⟨?_, ?_, ?_⟩
  · intro probe i1 i2 h
    constructor <;> simp [ensureRepoInitialized, h]
  · intro probe initRes h
    rcases initRes with ⟨ec, err⟩
    simp only [ensureRepoInitialized, h]
    norm_num
    cases err with
    | true => simp [exceptOk]
    | false => by_cases he : ec = 0 <;> simp [exceptOk, he]
  · intro probe initRes h0 h10
    simp [ensureRepoInitialized, h0, h10, exceptOk]

theorem c9_ensure_repo_initialized_witness :
    ((⟨0, false⟩ : CmdResult).exitCode = 0 ∧
      ensureRepoInitialized ⟨0, false⟩ ⟨1, true⟩ = .ok ()) ∧
    ((⟨10, false⟩ : CmdResult).exitCode = 10 ∧
      (exceptOk (ensureRepoInitialized ⟨10, false⟩ ⟨0, false⟩) = true ↔
        (⟨0, false⟩ : CmdResult).errNonNil = false ∧
          (⟨0, false⟩ : CmdResult).exitCode = 0)) ∧
    ((⟨2, false⟩ : CmdResult).exitCode ≠ 0 ∧ (⟨2, false⟩ : CmdResult).exitCode ≠ 10 ∧
      exceptOk (ensureRepoInitialized ⟨2, false⟩ ⟨0, false⟩) = false) :=
  ⟨⟨rfl, (c9_ensure_repo_initialized.1 ⟨0, false⟩ ⟨1, true⟩ ⟨1, true⟩ rfl).1⟩,
   ⟨rfl, c9_ensure_repo_initialized.2.1 ⟨10, false⟩ ⟨0, false⟩ rfl⟩,
   ⟨by decide, by decide,
    c9_ensure_repo_initialized.2.2 ⟨2, false⟩ ⟨0, false⟩ (by decide) (by decide)⟩⟩

/-! ## C8: HandleOutput rejects spoofed presence signals -/

/-- **C8.** Every line that contains the chat prefix, or does not contain
exactly one server-event marker, leaves the `PlayerChecker` state
unchanged; conversely a line that changes the state is a chat-free,
single-marker line matching the join or leave pattern. -/
theorem c8_handle_output_rejects_spoofed_lines :
    (∀ (p : PlayerChecker) (line : Str),
        containsStr serverChatPrefix line = true ∨
          countSub serverEventMarker line ≠ 1 →
        handleOutput line p = p) ∧
    (∀ (p : PlayerChecker) (line : Str), handleOutput line p ≠ p →
        containsStr serverChatPrefix line = false ∧
          countSub serverEventMarker line = 1 ∧
          (joinMatch line = true ∨ leaveMatch line = true)) := by
  constructor
  · intro p line h
    by_cases hc : containsStr serverChatPrefix line = true
    · simp [handleOutput, hc]
    · rcases h with h | h
      · exact absurd h hc
      · simp [handleOutput, hc, h]
  · intro p line hne
    by_cases hc : containsStr serverChatPrefix line = true
    · exact absurd (by simp [handleOutput, hc]) hne
    · by_cases hcount : countSub serverEventMarker line = 1
      · refine ⟨by simpa using hc, hcount, ?_⟩
        by_cases hj : joinMatch line = true
        · exact Or.inl hj
        · by_cases hl : leaveMatch line = true
          · exact Or.inr hl
          · exact absurd (by simp [handleOutput, hc, hcount, hj, hl]) hne
      · exact absurd (by simp [handleOutput, hc, hcount]) hne

/-- A spoofed chat line used to witness C8. -/
def chatSpoofLine : Str :=
  ("[Server Chat] attacker: [Server Event] fakeplayer joins.").data

theorem c8_handle_output_witness :
    (containsStr serverChatPrefix chatSpoofLine = true ∨
      countSub serverEventMarker chatSpoofLine ≠ 1) ∧
    handleOutput chatSpoofLine PlayerChecker.init = PlayerChecker.init :=
  ⟨Or.inl (by decide),
   c8_handle_output_rejects_spoofed_lines.1 PlayerChecker.init chatSpoofLine
     (Or.inl (by decide))⟩

/-! ## C7: ShouldBackup is a stateful gate -/

/-- A join event line as emitted by the server log. -/
def joinEventLine : Str :=
  ("12.10.2025 21:32:37 [Server Event] Alice joins.").data

/-- A leave event line as emitted by the server log. -/
def leaveEventLine : Str :=
  ("12.10.2025 21:32:37 [Server Event] Alice left.").data

/-- **C7.** `ShouldBackup` returns true on every call while a player is
present; after the last player departs it returns true exactly once more
(resetting its memory), then false on every later call while the count
stays non-positive (such calls also leave the state unchanged); the
concrete presence trace online, online, offline yields true, true, true
and one further call while offline yields false. -/
theorem c7_should_backup_player_gate :
    (∀ p : PlayerChecker, 0 < p.playerCount →
        (shouldBackup p).1 = true ∧
        (shouldBackup p).2.playersOnlineAtLastCheck = true) ∧
    (∀ p : PlayerChecker, p.playerCount ≤ 0 →
        p.playersOnlineAtLastCheck = true →
        (shouldBackup p).1 = true ∧
        (shouldBackup p).2.playersOnlineAtLastCheck = false) ∧
    (∀ p : PlayerChecker, p.playerCount ≤ 0 →
        p.playersOnlineAtLastCheck = false →
        (shouldBackup p).1 = false ∧ (shouldBackup p).2 = p) ∧
    (let p1 := handleOutput joinEventLine PlayerChecker.init
     let s1 := shouldBackup p1
     let s2 := shouldBackup s1.2
     let p3 := handleOutput leaveEventLine s2.2
     let s3 := shouldBackup p3
     let s4 := shouldBackup s3.2
     s1.1 = true ∧ s2.1 = true ∧ s3.1 = true ∧ s4.1 = false) := by
  refine ⟨?_, ?_, ?_, by decide⟩
  · intro p h
    constructor <;> simp [shouldBackup, h]
  · intro p h1 h2
    have hnot : ¬(0 < p.playerCount) := by omega
    constructor <;> simp [shouldBackup, hnot, h2]
  · rintro ⟨c, b⟩ h1 h2
    simp only at h1 h2
    subst h2
    have hnot : ¬((0 : Int) < c) := by omega
    constructor <;> simp [shouldBackup, hnot]

theorem c7_should_backup_witness :
    (0 < (⟨1, false⟩ : PlayerChecker).playerCount ∧
      (shouldBackup ⟨1, false⟩).1 = true) ∧
    ((⟨0, true⟩ : PlayerChecker).playerCount ≤ 0 ∧
      (shouldBackup ⟨0, true⟩).1 = true) ∧
    ((⟨0, false⟩ : PlayerChecker).playerCount ≤ 0 ∧
      (shouldBackup ⟨0, false⟩).1 = false) :=
  ⟨⟨by decide, (c7_should_backup_player_gate.1 ⟨1, false⟩ (by decide)).1⟩,
   ⟨by decide, (c7_should_backup_player_gate.2.1 ⟨0, true⟩ (by decide) rfl).1⟩,
   ⟨by decide, (c7_should_backup_player_gate.2.2.1 ⟨0, false⟩ (by decide) rfl).1⟩⟩

/-! ## C4: UID sanitization round trip -/

theorem trimRightEqs_eq_self {s : Str} (h : s.getLast? ≠ some '=') :
    trimRightEqs s = s := by
  unfold trimRightEqs
  cases hs : s.reverse with
  | nil =>
    have hnil : s = [] := by
      have := congrArg List.reverse hs
      simpa using this
    subst hnil
    rfl
  | cons c t =>
    have hlast : s.getLast? = some c := by
      rw [List.getLast?_eq_head?_reverse, hs]
      rfl
    have hc : ¬(c = '=') := fun he => h (by rw [hlast, he])
    rw [List.dropWhile_cons, if_neg (by simpa using hc)]
    rw [← hs, List.reverse_reverse]

/-- Round trip of the UID sanitization, on UIDs that use neither `'-'`
nor `'_'` and do not end in `'='` padding. -/
theorem sanitize_unsanitize_roundtrip (uid : Str)
    (hchars : ∀ c ∈ uid, c ≠ '-' ∧ c ≠ '_')
    (hpad : uid.getLast? ≠ some '=') :
    unsanitizePlayerUID (sanitizePlayerUID uid) = uid := by
  unfold sanitizePlayerUID unsanitizePlayerUID replaceAllChar
  simp only [List.map_map]
  have htrim : trimRightEqs (List.map
        ((fun x => if x = '/' then '_' else x) ∘ fun c => if c = '+' then '-' else c)
        uid) =
      List.map
        ((fun x => if x = '/' then '_' else x) ∘ fun c => if c = '+' then '-' else c)
        uid := by
    apply trimRightEqs_eq_self
    rw [List.getLast?_map]
    cases hu : uid.getLast? with
    | none => exact fun hcontra => Option.noConfusion hcontra
    | some c =>
      have hc : c ≠ '=' := fun he => hpad (by rw [hu, he])
      intro hcontra
      simp only [Option.map_some', Option.some.injEq, Function.comp_apply] at hcontra
      by_cases h1 : c = '+'
      · rw [if_pos h1] at hcontra
        simp at hcontra
      · rw [if_neg h1] at hcontra
        by_cases h2 : c = '/'
        · rw [if_pos h2] at hcontra
          simp at hcontra
        · rw [if_neg h2] at hcontra
          exact hc hcontra
  rw [htrim, List.map_map]
  have hpt : ∀ c ∈ uid,
      (((fun c => if c = '_' then '/' else c) ∘ fun c => if c = '-' then '+' else c) ∘
        (fun x => if x = '/' then '_' else x) ∘ fun c => if c = '+' then '-' else c) c
        = id c := by
    intro c hcmem
    obtain ⟨hd, hu⟩ := hchars c hcmem
    by_cases h1 : c = '+'
    · subst h1; rfl
    · by_cases h2 : c = '/'
      · subst h2; rfl
      · simp only [Function.comp_apply, if_neg h1, if_neg h2, if_neg hd, if_neg hu, id]
  rw [List.map_congr_left hpt, List.map_id]

/-- **C4 counterexample.** The UID `QQ==` is a base64-alphabet string
containing neither `'-'` nor `'_'`, yet the round trip returns `QQ`:
the stripped padding is not restored. -/
theorem c4_sanitize_counterexample :
    (∀ c ∈ ("QQ==").data, c ≠ '-' ∧ c ≠ '_') ∧
    unsanitizePlayerUID (sanitizePlayerUID ("QQ==").data) = ("QQ").data ∧
    ("QQ").data ≠ ("QQ==").data := by
  refine ⟨by decide, by decide, by decide⟩

/-- **C4 (amended).** For every base64-alphabet UID string that contains
neither `'-'` nor `'_'` and does not end in `'='` padding,
`unsanitizePlayerUID (sanitizePlayerUID uid) = uid`; sanitization maps
`'+'` to `'-'`, `'/'` to `'_'` and strips trailing `'='`. -/
theorem c4_sanitize_roundtrip_amended (uid : Str)
    (hchars : ∀ c ∈ uid, c ≠ '-' ∧ c ≠ '_')
    (hpad : uid.getLast? ≠ some '=') :
    unsanitizePlayerUID (sanitizePlayerUID uid) = uid :=
  sanitize_unsanitize_roundtrip uid hchars hpad

theorem c4_sanitize_roundtrip_witness :
    ((∀ c ∈ ("B5fZ7vAsz3Kt+fmEV8GeK8Gu").data, c ≠ '-' ∧ c ≠ '_') ∧
      ("B5fZ7vAsz3Kt+fmEV8GeK8Gu").data.getLast? ≠ some '=') ∧
    unsanitizePlayerUID (sanitizePlayerUID ("B5fZ7vAsz3Kt+fmEV8GeK8Gu").data) =
      ("B5fZ7vAsz3Kt+fmEV8GeK8Gu").data :=
  ⟨⟨by decide, by decide⟩,
   c4_sanitize_roundtrip_amended ("B5fZ7vAsz3Kt+fmEV8GeK8Gu").data
     (by decide) (by decide)⟩

/-! ## Filesystem lemmas -/

theorem statFile_cons (e : FPath × FsFile) (fs : FS) (q : FPath) :
    statFile (e :: fs) q = if e.1 = q then some e.2 else statFile fs q := by
  unfold statFile
  rw [List.find?_cons]
  by_cases h : e.1 = q
  · simp [h]
  · simp [h]

theorem statFile_filter (q : FPath → Bool) (fs : FS) (p : FPath) :
    statFile (fs.filter fun e => q e.1) p =
      if q p then statFile fs p else none := by
  induction fs with
  | nil => simp [statFile]
  | cons e t ih =>
    by_cases hq : q e.1
    · rw [List.filter_cons_of_pos (by simpa using hq), statFile_cons, statFile_cons]
      by_cases he : e.1 = p
      · subst he
        simp [hq]
      · simp only [if_neg he]
        exact ih
    · rw [List.filter_cons_of_neg (by simpa using hq), statFile_cons, ih]
      by_cases he : e.1 = p
      · subst he
        simp [hq]
      · simp [he]

theorem statFile_writeFile (fs : FS) (p q : FPath) (d : Blob) (t : Nat) :
    statFile (writeFile fs p d t) q = if p = q then some ⟨d, t⟩ else statFile fs q := by
  unfold writeFile
  rw [statFile_cons]
  by_cases h : p = q
  · simp [h]
  · simp only [if_neg h]
    have hqp : ¬q = p := fun hq => h hq.symm
    have := statFile_filter (fun x => !decide (x = p)) fs q
    rw [this, if_pos (by simpa using hqp)]

theorem fileMatchesContent_iff (fs : FS) (p : FPath) (d : Blob) :
    fileMatchesContent fs p d = true ↔ ∃ t, statFile fs p = some ⟨d, t⟩ := by
  unfold fileMatchesContent
  cases hs : statFile fs p with
  | none => simp
  | some f =>
    rcases f with ⟨fd, ft⟩
    constructor
    · intro h
      simp only [Bool.and_eq_true, decide_eq_true_eq] at h
      exact ⟨ft, by rw [h.2]⟩
    · rintro ⟨t, ht⟩
      injection ht with ht
      cases ht
      simp

/-! ## Lemmas about the caching write loop -/

theorem splitShardedTableWithCache_eq (now : Nat) (subdir : Str)
    (rows : List (Int × Option Blob)) (exp : List FPath) (fs : FS) :
    splitShardedTableWithCache now subdir rows exp fs =
      processItems now (shardItems subdir rows) exp fs := by
  induction rows generalizing exp fs with
  | nil => rfl
  | cons r rest ih =>
    rcases r with ⟨pos, od⟩
    cases od with
    | none =>
      simp only [splitShardedTableWithCache, shardItems, List.filterMap_cons]
      exact ih exp fs
    | some d =>
      simp only [splitShardedTableWithCache, shardItems, List.filterMap_cons,
        processItems]
      by_cases hm : fileMatchesContent fs (getShardedPath subdir pos) d
      · simp only [if_pos hm]
        rw [ih]
        rfl
      · simp only [if_neg hm]
        rw [ih]
        rfl

theorem splitGamedataWithCache_eq (now : Nat)
    (rows : List (Int × Option Blob)) (exp : List FPath) (fs : FS) :
    splitGamedataWithCache now rows exp fs =
      processItems now (gameItems rows) exp fs := by
  induction rows generalizing exp fs with
  | nil => rfl
  | cons r rest ih =>
    rcases r with ⟨id, od⟩
    cases od with
    | none =>
      simp only [splitGamedataWithCache, gameItems, List.filterMap_cons]
      exact ih exp fs
    | some d =>
      simp only [splitGamedataWithCache, gameItems, List.filterMap_cons, processItems]
      by_cases hm : fileMatchesContent fs [gamedataDir, gamedataFileName id] d
      · simp only [if_pos hm]
        rw [ih]
        rfl
      · simp only [if_neg hm]
        rw [ih]
        rfl

theorem splitPlayerdataWithCache_eq (now : Nat)
    (rows : List (Str × Option Blob)) (exp : List FPath) (fs : FS) :
    splitPlayerdataWithCache now rows exp fs =
      processItems now (playerItems rows) exp fs := by
  induction rows generalizing exp fs with
  | nil => rfl
  | cons r rest ih =>
    rcases r with ⟨uid, od⟩
    by_cases hu : uid = []
    · simp only [splitPlayerdataWithCache, playerItems, List.filterMap_cons, hu,
        if_pos rfl]
      simp only [↓reduceIte]
      exact ih exp fs
    · cases od with
      | none =>
        simp only [splitPlayerdataWithCache, playerItems, List.filterMap_cons,
          if_neg hu]
        exact ih exp fs
      | some d =>
        simp only [splitPlayerdataWithCache, playerItems, List.filterMap_cons,
          if_neg hu, processItems]
        by_cases hm : fileMatchesContent fs [playerdataDir, playerdataFileName uid] d
        · simp only [if_pos hm]
          rw [ih]
          rfl
        · simp only [if_neg hm]
          rw [ih]
          rfl

theorem processItems_expected (now : Nat) (items : List (FPath × Blob))
    (exp : List FPath) (fs : FS) :
    (processItems now items exp fs).expected =
      (items.map Prod.fst).reverse ++ exp := by
  induction items generalizing exp fs with
  | nil => simp [processItems]
  | cons it rest ih =>
    rcases it with ⟨p, d⟩
    simp only [processItems]
    by_cases hm : fileMatchesContent fs p d
    · simp only [if_pos hm, ih, List.map_cons, List.reverse_cons]
      simp
    · simp only [if_neg hm, ih, List.map_cons, List.reverse_cons]
      simp

theorem processItems_stat_frame (now : Nat) (items : List (FPath × Blob))
    (exp : List FPath) (fs : FS) (q : FPath)
    (h : q ∉ items.map Prod.fst) :
    statFile (processItems now items exp fs).fs q = statFile fs q := by
  induction items generalizing exp fs with
  | nil => rfl
  | cons it rest ih =>
    rcases it with ⟨p, d⟩
    have hq : p ≠ q := fun he => h (by simp [he])
    have hrest : q ∉ rest.map Prod.fst := fun hm => h (by simp [hm])
    simp only [processItems]
    by_cases hm : fileMatchesContent fs p d
    · simp only [if_pos hm]
      exact ih _ _ hrest
    · simp only [if_neg hm]
      rw [ih _ _ hrest, statFile_writeFile, if_neg hq]

theorem processItems_isSome_mono (now : Nat) (items : List (FPath × Blob))
    (exp : List FPath) (fs : FS) (q : FPath)
    (h : (statFile fs q).isSome = true) :
    (statFile (processItems now items exp fs).fs q).isSome = true := by
  induction items generalizing exp fs with
  | nil => exact h
  | cons it rest ih =>
    rcases it with ⟨p, d⟩
    simp only [processItems]
    by_cases hm : fileMatchesContent fs p d
    · simp only [if_pos hm]
      exact ih _ _ h
    · simp only [if_neg hm]
      apply ih
      rw [statFile_writeFile]
      by_cases hpq : p = q
      · simp [hpq]
      · simpa [hpq] using h

theorem processItems_isSome_of_mem (now : Nat) (items : List (FPath × Blob))
    (exp : List FPath) (fs : FS) (q : FPath)
    (h : q ∈ items.map Prod.fst) :
    (statFile (processItems now items exp fs).fs q).isSome = true := by
  induction items generalizing exp fs with
  | nil => simp at h
  | cons it rest ih =>
    rcases it with ⟨p, d⟩
    simp only [processItems]
    by_cases hmem : q ∈ rest.map Prod.fst
    · by_cases hm : fileMatchesContent fs p d
      · simp only [if_pos hm]
        exact ih _ _ hmem
      · simp only [if_neg hm]
        exact ih _ _ hmem
    · have hpq : p = q := by
        simp only [List.map_cons, List.mem_cons] at h
        rcases h with h | h
        · exact h.symm
        · exact absurd h hmem
      subst hpq
      by_cases hm : fileMatchesContent fs p d
      · simp only [if_pos hm]
        apply processItems_isSome_mono
        rcases (fileMatchesContent_iff fs p d).mp hm with ⟨t, ht⟩
        simp [ht]
      · simp only [if_neg hm]
        apply processItems_isSome_mono
        rw [statFile_writeFile, if_pos rfl]
        rfl

theorem processItems_isSome_cases (now : Nat) (items : List (FPath × Blob))
    (exp : List FPath) (fs : FS) (q : FPath)
    (h : (statFile (processItems now items exp fs).fs q).isSome = true) :
    (statFile fs q).isSome = true ∨ q ∈ items.map Prod.fst := by
  by_cases hmem : q ∈ items.map Prod.fst
  · exact Or.inr hmem
  · rw [processItems_stat_frame now items exp fs q hmem] at h
    exact Or.inl h

theorem processItems_content (now : Nat) (p : FPath) (d : Blob) :
    ∀ (items : List (FPath × Blob)) (exp : List FPath) (fs : FS),
      (items.map Prod.fst).Nodup → (p, d) ∈ items →
      ∃ t, statFile (processItems now items exp fs).fs p = some ⟨d, t⟩ := by
  intro items
  induction items with
  | nil => intro exp fs _ hmem; simp at hmem
  | cons it rest ih =>
    intro exp fs hnd hmem
    rcases it with ⟨q, e⟩
    have hnd' : (rest.map Prod.fst).Nodup := by
      simp only [List.map_cons, List.nodup_cons] at hnd
      exact hnd.2
    rcases List.mem_cons.mp hmem with heq | hmem'
    · injection heq with h1 h2
      subst h1
      subst h2
      have hnotin : p ∉ rest.map Prod.fst := by
        simp only [List.map_cons, List.nodup_cons] at hnd
        exact hnd.1
      simp only [processItems]
      by_cases hm : fileMatchesContent fs p d
      · simp only [if_pos hm]
        rw [processItems_stat_frame now rest _ _ p hnotin]
        exact (fileMatchesContent_iff fs p d).mp hm
      · simp only [if_neg hm]
        rw [processItems_stat_frame now rest _ _ p hnotin, statFile_writeFile,
          if_pos rfl]
        exact ⟨now, rfl⟩
    · simp only [processItems]
      by_cases hm : fileMatchesContent fs q e
      · simp only [if_pos hm]
        exact ih _ _ hnd' hmem'
      · simp only [if_neg hm]
        exact ih _ _ hnd' hmem'

theorem processItems_all_match (now : Nat) :
    ∀ (items : List (FPath × Blob)) (exp : List FPath) (fs : FS),
      (∀ pd ∈ items, fileMatchesContent fs pd.1 pd.2 = true) →
      processItems now items exp fs =
        ⟨0, items.length, (items.map Prod.fst).reverse ++ exp, fs⟩ := by
  intro items
  induction items with
  | nil => intro exp fs _; simp [processItems]
  | cons it rest ih =>
    intro exp fs h
    obtain ⟨p, d⟩ := it
    have hm : fileMatchesContent fs p d = true := h (p, d) (by simp)
    simp only [processItems, if_pos hm]
    rw [ih (p :: exp) fs (fun pd hpd => h pd (List.mem_cons_of_mem _ hpd))]
    simp

theorem foldl_filter_stale (exp : List FPath) :
    ∀ (rs : List Str) (fs : FS),
      rs.foldl (fun acc sub => acc.filter fun e => !staleIn sub exp e.1) fs =
        fs.filter fun e => !(rs.any fun sub => staleIn sub exp e.1) := by
  intro rs
  induction rs with
  | nil => intro fs; simp
  | cons r rt ih =>
    intro fs
    simp only [List.foldl_cons, ih, List.filter_filter]
    congr 1
    funext e
    cases hb : staleIn r exp e.1 <;>
      cases ha : rt.any (fun sub => staleIn sub exp e.1) <;>
        simp [List.any_cons, ha, hb]

theorem cleanupStaleFiles_eq_filter (fs : FS) (exp : List FPath) :
    cleanupStaleFiles fs exp =
      fs.filter fun e => !(managedRoots.any fun sub => staleIn sub exp e.1) :=
  foldl_filter_stale exp managedRoots fs

theorem statFile_cleanup (fs : FS) (exp : List FPath) (p : FPath) :
    statFile (cleanupStaleFiles fs exp) p =
      if managedRoots.any (fun sub => staleIn sub exp p) then none
      else statFile fs p := by
  rw [cleanupStaleFiles_eq_filter]
  have h := statFile_filter
    (fun q => !(managedRoots.any fun sub => staleIn sub exp q)) fs p
  rw [h]
  by_cases hc : managedRoots.any (fun sub => staleIn sub exp p) <;> simp [hc]

/-- Whether a path lies directly under one of the five managed roots. -/
def underManagedRoot (p : FPath) : Bool :=
  managedRoots.any fun sub => decide (p.head? = some sub)

/-- Whether a path lies under a managed root and its filename carries the
`.bin` extension — the files `cleanupStaleFiles` is allowed to delete. -/
def isManagedBin (p : FPath) : Bool :=
  underManagedRoot p && endsWithStr binExt (lastNameD p)

theorem any_and_const (rs : List Str) (f : Str → Bool) (b : Bool) :
    (rs.any fun s => f s && b) = (rs.any f && b) := by
  induction rs with
  | nil => simp
  | cons r rt ih => cases b <;> simp [List.any_cons, ih]

theorem any_stale_helper (rs : List Str) (exp : List FPath) (p : FPath) :
    (rs.any fun sub => staleIn sub exp p) =
      ((rs.any fun sub => decide (p.head? = some sub)) &&
        endsWithStr binExt (lastNameD p) && !decide (p ∈ exp)) := by
  induction rs with
  | nil => simp
  | cons r rt ih =>
    simp only [List.any_cons, ih, staleIn]
    cases h1 : decide (p.head? = some r) <;>
      cases h2 : rt.any (fun sub => decide (p.head? = some sub)) <;>
        cases h3 : endsWithStr binExt (lastNameD p) <;>
          cases h4 : decide (p ∈ exp) <;> simp [h1, h2, h3, h4]

theorem any_staleIn (exp : List FPath) (p : FPath) :
    (managedRoots.any fun sub => staleIn sub exp p) =
      (isManagedBin p && !decide (p ∈ exp)) := by
  unfold isManagedBin underManagedRoot
  exact any_stale_helper managedRoots exp p

theorem processItems_append (now : Nat) :
    ∀ (A B : List (FPath × Blob)) (exp : List FPath) (fs : FS),
      processItems now (A ++ B) exp fs =
        { written := (processItems now A exp fs).written +
            (processItems now B (processItems now A exp fs).expected
              (processItems now A exp fs).fs).written
          skipped := (processItems now A exp fs).skipped +
            (processItems now B (processItems now A exp fs).expected
              (processItems now A exp fs).fs).skipped
          expected := (processItems now B (processItems now A exp fs).expected
            (processItems now A exp fs).fs).expected
          fs := (processItems now B (processItems now A exp fs).expected
            (processItems now A exp fs).fs).fs } := by
  intro A
  induction A with
  | nil => intro B exp fs; simp [processItems]
  | cons it rest ih =>
    intro B exp fs
    obtain ⟨p, d⟩ := it
    simp only [List.cons_append, processItems, List.append_eq]
    by_cases hm : fileMatchesContent fs p d
    · simp only [if_pos hm]
      rw [ih]
      simp only [CacheRun.mk.injEq]
      refine ⟨?_, ?_, ?_, ?_⟩ <;> first | trivial | omega
    · simp only [if_neg hm]
      rw [ih]
      simp only [CacheRun.mk.injEq]
      refine ⟨?_, ?_, ?_, ?_⟩ <;> first | trivial | omega

/-- `SplitWithCache` is the caching loop over all of `Split`'s files
followed by the stale-file cleanup. -/
theorem splitWithCache_eq (db : DB) (fs : FS) (now : Nat) :
    SplitWithCache db fs now =
      { written := (processItems now (Split db) [] fs).written
        skipped := (processItems now (Split db) [] fs).skipped
        expected := (processItems now (Split db) [] fs).expected
        fs := cleanupStaleFiles (processItems now (Split db) [] fs).fs
          (processItems now (Split db) [] fs).expected } := by
  simp only [SplitWithCache, splitShardedTableWithCache_eq,
    splitGamedataWithCache_eq, splitPlayerdataWithCache_eq, Split]
  rw [processItems_append, processItems_append, processItems_append,
    processItems_append]

/-! ## Shapes of the paths produced by Split -/

/-- The expected-file paths of a run: one per file written by `Split`. -/
def splitPaths (db : DB) : List FPath := (Split db).map Prod.fst

theorem getShardedPath_head (subdir : Str) (pos : Int) :
    (getShardedPath subdir pos).head? = some subdir := rfl

theorem getShardedPath_last (subdir : Str) (pos : Int) :
    lastNameD (getShardedPath subdir pos) =
      hexFormat16 (toUInt64n pos) ++ binExt := rfl

theorem map_fst_shardItems (subdir : Str) (rows : List (Int × Option Blob)) :
    (shardItems subdir rows).map Prod.fst =
      rows.filterMap fun r => r.2.map fun _ => getShardedPath subdir r.1 := by
  induction rows with
  | nil => rfl
  | cons r rest ih =>
    rcases r with ⟨pos, od⟩
    cases od <;> simp [shardItems, List.filterMap_cons, ih] <;>
      simp [shardItems] at ih <;> exact ih

theorem map_fst_gameItems (rows : List (Int × Option Blob)) :
    (gameItems rows).map Prod.fst =
      rows.filterMap fun r => r.2.map fun _ => [gamedataDir, gamedataFileName r.1] := by
  induction rows with
  | nil => rfl
  | cons r rest ih =>
    rcases r with ⟨id, od⟩
    cases od <;> simp [gameItems, List.filterMap_cons, ih] <;>
      simp [gameItems] at ih <;> exact ih

theorem map_fst_playerItems (rows : List (Str × Option Blob))
    (huid : ∀ r ∈ rows, r.1 ≠ []) :
    (playerItems rows).map Prod.fst =
      rows.filterMap fun r =>
        r.2.map fun _ => [playerdataDir, playerdataFileName r.1] := by
  induction rows with
  | nil => rfl
  | cons r rest ih =>
    rcases r with ⟨uid, od⟩
    have hu : uid ≠ [] := huid (uid, od) (by simp)
    have ih' := ih fun r hr => huid r (List.mem_cons_of_mem _ hr)
    cases od <;> simp [playerItems, List.filterMap_cons, if_neg hu, ih'] <;>
      simp [playerItems] at ih' <;> exact ih'

theorem mem_shardItems_map {subdir : Str} {rows : List (Int × Option Blob)}
    {p : FPath} (h : p ∈ (shardItems subdir rows).map Prod.fst) :
    ∃ pos, p = getShardedPath subdir pos := by
  rw [map_fst_shardItems] at h
  obtain ⟨⟨pos, od⟩, _, hval⟩ := List.mem_filterMap.mp h
  cases od with
  | none => simp at hval
  | some d =>
    simp only [Option.map_some'] at hval
    injection hval with hval
    exact ⟨pos, hval.symm⟩

theorem mem_gameItems_map {rows : List (Int × Option Blob)}
    {p : FPath} (h : p ∈ (gameItems rows).map Prod.fst) :
    ∃ id, p = [gamedataDir, gamedataFileName id] := by
  rw [map_fst_gameItems] at h
  obtain ⟨⟨id, od⟩, _, hval⟩ := List.mem_filterMap.mp h
  cases od with
  | none => simp at hval
  | some d =>
    simp only [Option.map_some'] at hval
    injection hval with hval
    exact ⟨id, hval.symm⟩

theorem mem_playerItems_map {rows : List (Str × Option Blob)}
    {p : FPath} (h : p ∈ (playerItems rows).map Prod.fst) :
    ∃ uid, p = [playerdataDir, playerdataFileName uid] := by
  obtain ⟨⟨uid, od⟩, hmem, hval⟩ := List.mem_map.mp h
  obtain ⟨⟨u2, od2⟩, _, hval2⟩ := List.mem_filterMap.mp hmem
  by_cases hu : u2 = []
  · rw [if_pos hu] at hval2
    simp at hval2
  · rw [if_neg hu] at hval2
    cases od2 with
    | none => simp at hval2
    | some d =>
      simp only [Option.some.injEq, Prod.mk.injEq] at hval2
      obtain ⟨h1, h2⟩ := hval2
      exact ⟨u2, by rw [← hval, ← h1]⟩

theorem splitPaths_shape {db : DB} {p : FPath} (h : p ∈ splitPaths db) :
    (∃ pos, p = getShardedPath chunksDir pos) ∨
    (∃ pos, p = getShardedPath mapchunksDir pos) ∨
    (∃ pos, p = getShardedPath mapregionsDir pos) ∨
    (∃ id, p = [gamedataDir, gamedataFileName id]) ∨
    (∃ uid, p = [playerdataDir, playerdataFileName uid]) := by
  unfold splitPaths Split at h
  simp only [List.map_append, List.mem_append] at h
  rcases h with (((h | h) | h) | h) | h
  · exact Or.inl (mem_shardItems_map h)
  · exact Or.inr (Or.inl (mem_shardItems_map h))
  · exact Or.inr (Or.inr (Or.inl (mem_shardItems_map h)))
  · exact Or.inr (Or.inr (Or.inr (Or.inl (mem_gameItems_map h))))
  · exact Or.inr (Or.inr (Or.inr (Or.inr (mem_playerItems_map h))))

theorem splitPaths_bin {db : DB} {p : FPath} (h : p ∈ splitPaths db) :
    endsWithStr binExt (lastNameD p) = true := by
  rcases splitPaths_shape h with ⟨pos, rfl⟩ | ⟨pos, rfl⟩ | ⟨pos, rfl⟩ |
    ⟨id, rfl⟩ | ⟨uid, rfl⟩
  · rw [getShardedPath_last]; exact endsWithStr_append_self _ _
  · rw [getShardedPath_last]; exact endsWithStr_append_self _ _
  · rw [getShardedPath_last]; exact endsWithStr_append_self _ _
  · exact endsWithStr_append_self _ _
  · exact endsWithStr_append_self _ _

theorem underManagedRoot_of_head {p : FPath} {sub : Str}
    (hmem : sub ∈ managedRoots) (h : p.head? = some sub) :
    underManagedRoot p = true := by
  unfold underManagedRoot
  rw [List.any_eq_true]
  exact ⟨sub, hmem, by simp [h]⟩

theorem splitPaths_isManagedBin {db : DB} {p : FPath} (h : p ∈ splitPaths db) :
    isManagedBin p = true := by
  unfold isManagedBin
  rw [splitPaths_bin h, Bool.and_true]
  rcases splitPaths_shape h with ⟨pos, rfl⟩ | ⟨pos, rfl⟩ | ⟨pos, rfl⟩ |
    ⟨id, rfl⟩ | ⟨uid, rfl⟩
  · exact underManagedRoot_of_head (by simp [managedRoots]) rfl
  · exact underManagedRoot_of_head (by simp [managedRoots]) rfl
  · exact underManagedRoot_of_head (by simp [managedRoots]) rfl
  · exact underManagedRoot_of_head (by simp [managedRoots]) rfl
  · exact underManagedRoot_of_head (by simp [managedRoots]) rfl

/-- The deterministic path of every currently-non-null row of the
database, table by table, as the specification states it. -/
def rowPaths (db : DB) : List FPath :=
  db.chunk.filterMap (fun r => r.2.map fun _ => getShardedPath chunksDir r.1) ++
  db.mapchunk.filterMap (fun r => r.2.map fun _ => getShardedPath mapchunksDir r.1) ++
  db.mapregion.filterMap (fun r => r.2.map fun _ => getShardedPath mapregionsDir r.1) ++
  db.gamedata.filterMap (fun r => r.2.map fun _ => [gamedataDir, gamedataFileName r.1]) ++
  db.playerdata.filterMap
    (fun r => r.2.map fun _ => [playerdataDir, playerdataFileName r.1])

theorem rowPaths_eq_splitPaths (db : DB)
    (huid : ∀ r ∈ db.playerdata, r.1 ≠ []) :
    rowPaths db = splitPaths db := by
  unfold rowPaths splitPaths Split
  simp only [List.map_append]
  rw [map_fst_shardItems, map_fst_shardItems, map_fst_shardItems,
    map_fst_gameItems, map_fst_playerItems db.playerdata huid]

/-! ## C10: cleanup only ever deletes `.bin` files -/

/-- **C10.** A pre-existing file whose name does not end in `.bin` is
untouched by `SplitWithCache`: its content and modification time are
unchanged after any run, whatever the database contains. -/
theorem c10_non_bin_files_preserved (db : DB) (fs : FS) (now : Nat) (p : FPath)
    (h : endsWithStr binExt (lastNameD p) = false) :
    statFile (SplitWithCache db fs now).fs p = statFile fs p := by
  rw [splitWithCache_eq]
  show statFile (cleanupStaleFiles (processItems now (Split db) [] fs).fs
    (processItems now (Split db) [] fs).expected) p = statFile fs p
  rw [statFile_cleanup, any_staleIn]
  have hbin : isManagedBin p = false := by
    unfold isManagedBin
    rw [h, Bool.and_false]
  rw [hbin, Bool.false_and, if_neg (by simp)]
  apply processItems_stat_frame
  intro hmem
  have hb : endsWithStr binExt (lastNameD p) = true := splitPaths_bin hmem
  rw [h] at hb
  exact Bool.false_ne_true hb

theorem c10_non_bin_files_preserved_witness :
    endsWithStr binExt
      (lastNameD [("chunks").data, ("junk.txt").data]) = false ∧
    statFile (SplitWithCache ⟨[], [], [], [], []⟩
        [([("chunks").data, ("junk.txt").data], ⟨[1], 5⟩)] 7).fs
        [("chunks").data, ("junk.txt").data] =
      statFile [([("chunks").data, ("junk.txt").data], ⟨[1], 5⟩)]
        [("chunks").data, ("junk.txt").data] :=
  ⟨by decide,
   c10_non_bin_files_preserved ⟨[], [], [], [], []⟩
     [([("chunks").data, ("junk.txt").data], ⟨[1], 5⟩)] 7
     [("chunks").data, ("junk.txt").data] (by decide)⟩

/-! ## C2: the cache holds exactly the current rows' files -/

/-- **C2 counterexample.** A pre-existing file `chunks/junk.txt` (no
`.bin` suffix) survives a successful `SplitWithCache` run over an empty
database, although it is the path of no row: the file set under the
managed roots is not exactly the row-path set. -/
theorem c2_counterexample :
    rowPaths ⟨[], [], [], [], []⟩ = [] ∧
    (statFile (SplitWithCache ⟨[], [], [], [], []⟩
        [([("chunks").data, ("junk.txt").data], ⟨[1], 5⟩)] 7).fs
      [("chunks").data, ("junk.txt").data]).isSome = true := by
  refine ⟨rfl, by decide⟩

/-- **C2 (amended).** After any successful `SplitWithCache` run over a
database whose playerdata UIDs are non-empty, the set of `.bin`-named
files under the five managed roots equals exactly the set of
deterministic paths of the currently-non-null rows, regardless of the
previous cache contents.  (Files without the `.bin` suffix are outside
the managed set and survive, as claim C10 records.) -/
theorem c2_cache_managed_bin_exact (db : DB) (fs : FS) (now : Nat)
    (huid : ∀ r ∈ db.playerdata, r.1 ≠ []) (p : FPath) :
    ((statFile (SplitWithCache db fs now).fs p).isSome = true ∧
      isManagedBin p = true) ↔ p ∈ rowPaths db := by
  rw [rowPaths_eq_splitPaths db huid, splitWithCache_eq]
  show ((statFile (cleanupStaleFiles (processItems now (Split db) [] fs).fs
      (processItems now (Split db) [] fs).expected) p).isSome = true ∧
      isManagedBin p = true) ↔ p ∈ splitPaths db
  rw [statFile_cleanup, any_staleIn]
  have hexp : (processItems now (Split db) [] fs).expected =
      ((Split db).map Prod.fst).reverse ++ [] :=
    processItems_expected now (Split db) [] fs
  constructor
  · rintro ⟨hsome, hbin⟩
    by_cases hmem : p ∈ (processItems now (Split db) [] fs).expected
    · rw [hexp] at hmem
      simpa [splitPaths] using hmem
    · rw [if_pos (by rw [hbin]; simp [hmem])] at hsome
      simp at hsome
  · intro hmem
    have hmem' : p ∈ (processItems now (Split db) [] fs).expected := by
      rw [hexp]
      simp only [List.append_nil, List.mem_reverse]
      exact hmem
    have hbin := splitPaths_isManagedBin hmem
    rw [if_neg (by simp [hmem'])]
    exact ⟨processItems_isSome_of_mem now (Split db) [] fs p hmem, hbin⟩

theorem c2_cache_managed_bin_exact_witness :
    (∀ r ∈ (⟨[(5, some [9])], [], [], [], []⟩ : DB).playerdata, r.1 ≠ []) ∧
    (((statFile (SplitWithCache ⟨[(5, some [9])], [], [], [], []⟩ [] 3).fs
        (getShardedPath chunksDir 5)).isSome = true ∧
      isManagedBin (getShardedPath chunksDir 5) = true) ↔
        getShardedPath chunksDir 5 ∈ rowPaths ⟨[(5, some [9])], [], [], [], []⟩) :=
  ⟨by decide,
   c2_cache_managed_bin_exact ⟨[(5, some [9])], [], [], [], []⟩ [] 3 (by decide)
     (getShardedPath chunksDir 5)⟩

/-! ## C3: idempotence of SplitWithCache on an unchanged source -/

/-- The number of non-null rows of the database, over all five tables. -/
def nonNullRows (db : DB) : Nat :=
  (db.chunk.filter fun r => r.2.isSome).length +
  (db.mapchunk.filter fun r => r.2.isSome).length +
  (db.mapregion.filter fun r => r.2.isSome).length +
  (db.gamedata.filter fun r => r.2.isSome).length +
  (db.playerdata.filter fun r => r.2.isSome).length

theorem shardItems_length (subdir : Str) (rows : List (Int × Option Blob)) :
    (shardItems subdir rows).length =
      (rows.filter fun r => r.2.isSome).length := by
  induction rows with
  | nil => rfl
  | cons r rest ih =>
    rcases r with ⟨pos, od⟩
    cases od <;> simp [shardItems, List.filterMap_cons, List.filter_cons] <;>
      simpa [shardItems] using ih

theorem gameItems_length (rows : List (Int × Option Blob)) :
    (gameItems rows).length = (rows.filter fun r => r.2.isSome).length := by
  induction rows with
  | nil => rfl
  | cons r rest ih =>
    rcases r with ⟨id, od⟩
    cases od <;> simp [gameItems, List.filterMap_cons, List.filter_cons] <;>
      simpa [gameItems] using ih

theorem playerItems_length (rows : List (Str × Option Blob))
    (huid : ∀ r ∈ rows, r.1 ≠ []) :
    (playerItems rows).length = (rows.filter fun r => r.2.isSome).length := by
  induction rows with
  | nil => rfl
  | cons r rest ih =>
    rcases r with ⟨uid, od⟩
    have hu : uid ≠ [] := huid (uid, od) (by simp)
    have ih' := ih fun r hr => huid r (List.mem_cons_of_mem _ hr)
    cases od <;>
      simp [playerItems, List.filterMap_cons, List.filter_cons, if_neg hu] <;>
      simpa [playerItems] using ih'

theorem split_length (db : DB) (huid : ∀ r ∈ db.playerdata, r.1 ≠ []) :
    (Split db).length = nonNullRows db := by
  unfold Split nonNullRows
  simp only [List.length_append]
  rw [shardItems_length, shardItems_length, shardItems_length,
    gameItems_length, playerItems_length db.playerdata huid]

theorem firstRun_content (db : DB) (fs : FS) (now : Nat)
    (hnd : ((Split db).map Prod.fst).Nodup)
    {p : FPath} {d : Blob} (hmem : (p, d) ∈ Split db) :
    ∃ t, statFile (SplitWithCache db fs now).fs p = some ⟨d, t⟩ := by
  rw [splitWithCache_eq]
  show ∃ t, statFile (cleanupStaleFiles (processItems now (Split db) [] fs).fs
    (processItems now (Split db) [] fs).expected) p = some ⟨d, t⟩
  have hpmem : p ∈ (Split db).map Prod.fst :=
    List.mem_map.mpr ⟨(p, d), hmem, rfl⟩
  have hmem' : p ∈ (processItems now (Split db) [] fs).expected := by
    rw [processItems_expected]
    simp only [List.append_nil, List.mem_reverse]
    exact hpmem
  rw [statFile_cleanup, any_staleIn, if_neg (by simp [hmem'])]
  exact processItems_content now p d (Split db) [] fs hnd hmem

theorem secondRun_matches (db : DB) (fs : FS) (now : Nat)
    (hnd : ((Split db).map Prod.fst).Nodup) :
    ∀ pd ∈ Split db,
      fileMatchesContent (SplitWithCache db fs now).fs pd.1 pd.2 = true := by
  intro pd hpd
  obtain ⟨p, d⟩ := pd
  obtain ⟨t, ht⟩ := firstRun_content db fs now hnd hpd
  rw [fileMatchesContent_iff]
  exact ⟨t, ht⟩

theorem cleanupStaleFiles_idem (fs : FS) (exp : List FPath) :
    cleanupStaleFiles (cleanupStaleFiles fs exp) exp =
      cleanupStaleFiles fs exp := by
  rw [cleanupStaleFiles_eq_filter, cleanupStaleFiles_eq_filter,
    List.filter_filter]
  congr 1
  funext e
  cases managedRoots.any fun sub => staleIn sub exp e.1 <;> simp

/-- **C3 counterexample.** The playerdata UIDs `QQ==` and `QQ` sanitize
to the same filename `QQ.bin`, so the two rows fight over one cache file:
the second `SplitWithCache` call over the unchanged database rewrites the
file twice (`written = 2`, not `0`) and skips nothing. -/
theorem c3_counterexample :
    (SplitWithCache ⟨[], [], [], [],
        [(("QQ==").data, some [1]), (("QQ").data, some [2])]⟩
      (SplitWithCache ⟨[], [], [], [],
          [(("QQ==").data, some [1]), (("QQ").data, some [2])]⟩ [] 0).fs
      1).written = 2 ∧
    (SplitWithCache ⟨[], [], [], [],
        [(("QQ==").data, some [1]), (("QQ").data, some [2])]⟩
      (SplitWithCache ⟨[], [], [], [],
          [(("QQ==").data, some [1]), (("QQ").data, some [2])]⟩ [] 0).fs
      1).skipped = 0 ∧
    nonNullRows ⟨[], [], [], [],
        [(("QQ==").data, some [1]), (("QQ").data, some [2])]⟩ = 2 := by
  refine ⟨by decide, by decide, by decide⟩

/-- **C3 (amended).** For a database whose playerdata UIDs are non-empty
and whose split file paths are pairwise distinct (the keyed tables
guarantee this; for playerdata it means no two UIDs sanitize to the same
filename), a second `SplitWithCache` over the unchanged source writes
nothing, skips exactly the non-null rows, and returns the filesystem
unchanged — contents and modification times included. -/
theorem c3_idempotent_amended (db : DB) (fs : FS) (t1 t2 : Nat)
    (hnd : ((Split db).map Prod.fst).Nodup)
    (huid : ∀ r ∈ db.playerdata, r.1 ≠ []) :
    (SplitWithCache db (SplitWithCache db fs t1).fs t2).written = 0 ∧
    (SplitWithCache db (SplitWithCache db fs t1).fs t2).skipped = nonNullRows db ∧
    (SplitWithCache db (SplitWithCache db fs t1).fs t2).fs =
      (SplitWithCache db fs t1).fs := by
  have hmatch := secondRun_matches db fs t1 hnd
  have hproc := processItems_all_match t2 (Split db) []
    (SplitWithCache db fs t1).fs hmatch
  refine ⟨?_, ?_, ?_⟩
  · rw [splitWithCache_eq db (SplitWithCache db fs t1).fs t2]
    show (processItems t2 (Split db) [] (SplitWithCache db fs t1).fs).written = 0
    rw [hproc]
  · rw [splitWithCache_eq db (SplitWithCache db fs t1).fs t2]
    show (processItems t2 (Split db) []
      (SplitWithCache db fs t1).fs).skipped = nonNullRows db
    rw [hproc]
    exact split_length db huid
  · rw [splitWithCache_eq db (SplitWithCache db fs t1).fs t2]
    show cleanupStaleFiles
        (processItems t2 (Split db) [] (SplitWithCache db fs t1).fs).fs
        (processItems t2 (Split db) [] (SplitWithCache db fs t1).fs).expected =
      (SplitWithCache db fs t1).fs
    rw [hproc]
    show cleanupStaleFiles (SplitWithCache db fs t1).fs
        (((Split db).map Prod.fst).reverse ++ []) = (SplitWithCache db fs t1).fs
    rw [splitWithCache_eq db fs t1]
    show cleanupStaleFiles
        (cleanupStaleFiles (processItems t1 (Split db) [] fs).fs
          (processItems t1 (Split db) [] fs).expected)
        (((Split db).map Prod.fst).reverse ++ []) =
      cleanupStaleFiles (processItems t1 (Split db) [] fs).fs
        (processItems t1 (Split db) [] fs).expected
    rw [processItems_expected t1 (Split db) [] fs]
    exact cleanupStaleFiles_idem _ _

theorem c3_idempotent_amended_witness :
    (((Split ⟨[(5, some [9])], [], [], [], []⟩).map Prod.fst).Nodup ∧
      (∀ r ∈ (⟨[(5, some [9])], [], [], [], []⟩ : DB).playerdata, r.1 ≠ [])) ∧
    (SplitWithCache ⟨[(5, some [9])], [], [], [], []⟩
        (SplitWithCache ⟨[(5, some [9])], [], [], [], []⟩ [] 0).fs 1).written = 0 ∧
    (SplitWithCache ⟨[(5, some [9])], [], [], [], []⟩
        (SplitWithCache ⟨[(5, some [9])], [], [], [], []⟩ [] 0).fs 1).skipped =
      nonNullRows ⟨[(5, some [9])], [], [], [], []⟩ ∧
    (SplitWithCache ⟨[(5, some [9])], [], [], [], []⟩
        (SplitWithCache ⟨[(5, some [9])], [], [], [], []⟩ [] 0).fs 1).fs =
      (SplitWithCache ⟨[(5, some [9])], [], [], [], []⟩ [] 0).fs :=
  ⟨⟨by decide, by decide⟩,
   c3_idempotent_amended ⟨[(5, some [9])], [], [], [], []⟩ [] 0 1
     (by decide) (by decide)⟩

/-! ## Round trip of the 64-bit key through the filename codec -/

theorem toUInt64n_lt (v : Int) : toUInt64n v < 2 ^ 64 := by
  unfold toUInt64n
  omega

theorem toInt64_toUInt64n {v : Int} (hlo : -(2 ^ 63 : Int) ≤ v)
    (hhi : v < 2 ^ 63) : toInt64 (toUInt64n v) = v := by
  unfold toInt64 toUInt64n
  by_cases h : (v % (2 ^ 64 : Int)).toNat % 2 ^ 64 < 2 ^ 63
  · rw [if_pos h]
    omega
  · rw [if_neg h]
    omega

/-- The fold of `INSERT OR REPLACE` over a table's rows (null blobs
skipped), as executed by the walk in `combineShardedTable` /
`combineGamedata`. -/
def foldUpsert {α : Type} [DecidableEq α] (acc : List (α × Blob))
    (rows : List (α × Option Blob)) : List (α × Blob) :=
  rows.foldl (fun a r =>
    match r.2 with
    | some d => upsert a r.1 d
    | none => a) acc

theorem combineShardedRows_skip (subdir : Str) (p : FPath) (d : Blob)
    (rest : VTree) (acc : List (Int × Blob)) (h : p.head? ≠ some subdir) :
    combineShardedRows subdir ((p, d) :: rest) acc =
      combineShardedRows subdir rest acc := by
  simp only [combineShardedRows, if_neg h]

theorem combineShardedRows_skip_pre (subdir : Str) :
    ∀ (xs ys : VTree) (acc : List (Int × Blob)),
      (∀ e ∈ xs, e.1.head? ≠ some subdir) →
      combineShardedRows subdir (xs ++ ys) acc =
        combineShardedRows subdir ys acc := by
  intro xs
  induction xs with
  | nil => intro ys acc _; rfl
  | cons e rest ih =>
    intro ys acc h
    obtain ⟨p, d⟩ := e
    rw [List.cons_append,
      combineShardedRows_skip subdir p d _ acc (h (p, d) (by simp))]
    exact ih ys acc fun e he => h e (List.mem_cons_of_mem _ he)

theorem combineShardedRows_skip_all (subdir : Str) :
    ∀ (ys : VTree) (acc : List (Int × Blob)),
      (∀ e ∈ ys, e.1.head? ≠ some subdir) →
      combineShardedRows subdir ys acc = .ok acc := by
  intro ys
  induction ys with
  | nil => intro acc _; rfl
  | cons e rest ih =>
    intro acc h
    obtain ⟨p, d⟩ := e
    rw [combineShardedRows_skip subdir p d _ acc (h (p, d) (by simp))]
    exact ih acc fun e he => h e (List.mem_cons_of_mem _ he)

theorem combineShardedRows_entry (subdir : Str) (pos : Int) (d : Blob)
    (rest : VTree) (acc : List (Int × Blob)) :
    combineShardedRows subdir ((getShardedPath subdir pos, d) :: rest) acc =
      combineShardedRows subdir rest (upsert acc (toInt64 (toUInt64n pos)) d) := by
  simp only [combineShardedRows, getShardedPath, List.head?_cons, if_true]
  simp only [List.getLast?_cons_cons, List.getLast?_singleton]
  rw [endsWithStr_append_self binExt (hexFormat16 (toUInt64n pos)),
    if_pos rfl]
  rw [trimSuffixStr_append binExt (hexFormat16 (toUInt64n pos))]
  rw [show (hexFormat16 (toUInt64n pos)).length = 16 from hexFormat_length 16 _,
    if_pos rfl]
  rw [parseHexNat_hexFormat16 (toUInt64n_lt pos)]

theorem combineShardedRows_items (subdir : Str) :
    ∀ (rows : List (Int × Option Blob)) (ys : VTree) (acc : List (Int × Blob)),
      (∀ r ∈ rows, -(2 ^ 63 : Int) ≤ r.1 ∧ r.1 < 2 ^ 63) →
      combineShardedRows subdir (shardItems subdir rows ++ ys) acc =
        combineShardedRows subdir ys (foldUpsert acc rows) := by
  intro rows
  induction rows with
  | nil => intro ys acc _; rfl
  | cons r rest ih =>
    intro ys acc hrange
    obtain ⟨pos, od⟩ := r
    have hr := hrange (pos, od) (by simp)
    have hrest := fun r hr => hrange r (List.mem_cons_of_mem _ hr)
    cases od with
    | none =>
      simp only [shardItems, List.filterMap_cons, foldUpsert, List.foldl_cons]
      exact ih ys acc hrest
    | some d =>
      simp only [shardItems, List.filterMap_cons, List.cons_append]
      rw [combineShardedRows_entry, toInt64_toUInt64n hr.1 hr.2]
      have := ih ys (upsert acc pos d) hrest
      simp only [shardItems] at this
      rw [this]
      rfl

theorem filter_eq_self_of_not_mem_fst {α : Type} [DecidableEq α]
    (acc : List (α × Blob)) (k : α) (h : k ∉ acc.map Prod.fst) :
    (acc.filter fun e => !decide (e.1 = k)) = acc := by
  rw [List.filter_eq_self]
  intro e he
  have : e.1 ≠ k := fun hk => h (List.mem_map.mpr ⟨e, he, hk⟩)
  simp [this]

theorem foldUpsert_eq {α : Type} [DecidableEq α] :
    ∀ (rows : List (α × Option Blob)) (acc : List (α × Blob)),
      (rows.map Prod.fst).Nodup →
      (∀ r ∈ rows, r.1 ∉ acc.map Prod.fst) →
      foldUpsert acc rows =
        (rows.filterMap fun r => r.2.map fun d => (r.1, d)).reverse ++ acc := by
  intro rows
  induction rows with
  | nil => intro acc _ _; rfl
  | cons r rest ih =>
    intro acc hnd hdisj
    obtain ⟨k, od⟩ := r
    have hknot : k ∉ rest.map Prod.fst := by
      simp only [List.map_cons, List.nodup_cons] at hnd
      exact hnd.1
    have hnd' : (rest.map Prod.fst).Nodup := by
      simp only [List.map_cons, List.nodup_cons] at hnd
      exact hnd.2
    cases od with
    | none =>
      simp only [foldUpsert, List.foldl_cons, List.filterMap_cons]
      have := ih acc hnd' fun r hr => hdisj r (List.mem_cons_of_mem _ hr)
      simpa [foldUpsert] using this
    | some d =>
      simp only [foldUpsert, List.foldl_cons, List.filterMap_cons]
      have hkacc : k ∉ acc.map Prod.fst := hdisj (k, some d) (by simp)
      have hup : upsert acc k d = (k, d) :: acc := by
        unfold upsert
        rw [filter_eq_self_of_not_mem_fst acc k hkacc]
      rw [hup]
      have hdisj' : ∀ r ∈ rest, r.1 ∉ ((k, d) :: acc).map Prod.fst := by
        intro r hr
        simp only [List.map_cons, List.mem_cons]
        rintro (hk | hk)
        · exact hknot (hk ▸ List.mem_map.mpr ⟨r, hr, rfl⟩)
        · exact hdisj r (List.mem_cons_of_mem _ hr) hk
      have := ih ((k, d) :: acc) hnd' hdisj'
      simp only [foldUpsert] at this
      rw [this]
      simp

theorem foldUpsert_mem {α : Type} [DecidableEq α]
    (rows : List (α × Option Blob)) (hnd : (rows.map Prod.fst).Nodup)
    (k : α) (v : Blob) :
    ((k, v) ∈ foldUpsert ([] : List (α × Blob)) rows ↔ (k, some v) ∈ rows) := by
  rw [foldUpsert_eq rows [] hnd (by simp)]
  simp only [List.append_nil, List.mem_reverse, List.mem_filterMap]
  constructor
  · rintro ⟨⟨k2, od⟩, hmem, hval⟩
    cases od with
    | none => simp at hval
    | some d =>
      simp only [Option.map_some', Option.some.injEq, Prod.mk.injEq] at hval
      obtain ⟨h1, h2⟩ := hval
      rw [← h1, ← h2]
      exact hmem
  · intro hmem
    exact ⟨(k, some v), hmem, rfl⟩

theorem combineGamedataRows_skip (p : FPath) (d : Blob) (rest : VTree)
    (acc : List (Int × Blob))
    (h : p.head? ≠ some gamedataDir ∨ p.length ≠ 2) :
    combineGamedataRows ((p, d) :: rest) acc = combineGamedataRows rest acc := by
  match p with
  | [] => rfl
  | [a] => rfl
  | [a, b] =>
    have ha : ¬(a = gamedataDir) := by
      rcases h with h | h
      · intro he
        exact h (by rw [List.head?_cons, he])
      · exact absurd rfl h
    simp only [combineGamedataRows, if_neg ha]
  | a :: b :: c :: t => rfl

theorem combineGamedataRows_entry (id : Int) (d : Blob) (rest : VTree)
    (acc : List (Int × Blob))
    (h1 : -(2 ^ 63 : Int) ≤ id) (h2 : id < 2 ^ 63) :
    combineGamedataRows (([gamedataDir, gamedataFileName id], d) :: rest) acc =
      combineGamedataRows rest (upsert acc id d) := by
  simp only [combineGamedataRows, gamedataFileName, if_true]
  rw [endsWithStr_append_self binExt (intDec id), if_pos rfl,
    trimSuffixStr_append binExt (intDec id),
    parseGoInt64_intDec h1 h2]

theorem combinePlayerdataRows_skip (p : FPath) (d : Blob) (rest : VTree)
    (acc : List (Str × Blob))
    (h : p.head? ≠ some playerdataDir ∨ p.length ≠ 2) :
    combinePlayerdataRows ((p, d) :: rest) acc =
      combinePlayerdataRows rest acc := by
  match p with
  | [] => rfl
  | [a] => rfl
  | [a, b] =>
    have ha : ¬(a = playerdataDir) := by
      rcases h with h | h
      · intro he
        exact h (by rw [List.head?_cons, he])
      · exact absurd rfl h
    simp only [combinePlayerdataRows, if_neg ha]
  | a :: b :: c :: t => rfl

theorem combinePlayerdataRows_entry (uid : Str) (d : Blob) (rest : VTree)
    (acc : List (Str × Blob))
    (hchars : ∀ c ∈ uid, c ≠ '-' ∧ c ≠ '_')
    (hpad : uid.getLast? ≠ some '=') :
    combinePlayerdataRows (([playerdataDir, playerdataFileName uid], d) :: rest)
        acc =
      combinePlayerdataRows rest (acc ++ [(uid, d)]) := by
  simp only [combinePlayerdataRows, playerdataFileName, if_true]
  rw [endsWithStr_append_self binExt (sanitizePlayerUID uid), if_pos rfl,
    trimSuffixStr_append binExt (sanitizePlayerUID uid),
    sanitize_unsanitize_roundtrip uid hchars hpad]

theorem combineGamedataRows_skip_pre :
    ∀ (xs ys : VTree) (acc : List (Int × Blob)),
      (∀ e ∈ xs, e.1.head? ≠ some gamedataDir ∨ e.1.length ≠ 2) →
      combineGamedataRows (xs ++ ys) acc = combineGamedataRows ys acc := by
  intro xs
  induction xs with
  | nil => intro ys acc _; rfl
  | cons e rest ih =>
    intro ys acc h
    obtain ⟨p, d⟩ := e
    rw [List.cons_append, combineGamedataRows_skip p d _ acc (h (p, d) (by simp))]
    exact ih ys acc fun e he => h e (List.mem_cons_of_mem _ he)

theorem combineGamedataRows_skip_all :
    ∀ (ys : VTree) (acc : List (Int × Blob)),
      (∀ e ∈ ys, e.1.head? ≠ some gamedataDir ∨ e.1.length ≠ 2) →
      combineGamedataRows ys acc = .ok acc := by
  intro ys
  induction ys with
  | nil => intro acc _; rfl
  | cons e rest ih =>
    intro acc h
    obtain ⟨p, d⟩ := e
    rw [combineGamedataRows_skip p d _ acc (h (p, d) (by simp))]
    exact ih acc fun e he => h e (List.mem_cons_of_mem _ he)

theorem combineGamedataRows_items :
    ∀ (rows : List (Int × Option Blob)) (ys : VTree) (acc : List (Int × Blob)),
      (∀ r ∈ rows, -(2 ^ 63 : Int) ≤ r.1 ∧ r.1 < 2 ^ 63) →
      combineGamedataRows (gameItems rows ++ ys) acc =
        combineGamedataRows ys (foldUpsert acc rows) := by
  intro rows
  induction rows with
  | nil => intro ys acc _; rfl
  | cons r rest ih =>
    intro ys acc hrange
    obtain ⟨id, od⟩ := r
    have hr := hrange (id, od) (by simp)
    have hrest := fun r hr => hrange r (List.mem_cons_of_mem _ hr)
    cases od with
    | none =>
      simp only [gameItems, List.filterMap_cons, foldUpsert, List.foldl_cons]
      exact ih ys acc hrest
    | some d =>
      simp only [gameItems, List.filterMap_cons, List.cons_append]
      rw [combineGamedataRows_entry id d _ acc hr.1 hr.2]
      have := ih ys (upsert acc id d) hrest
      simp only [gameItems] at this
      rw [this]
      rfl

theorem combinePlayerdataRows_skip_pre :
    ∀ (xs ys : VTree) (acc : List (Str × Blob)),
      (∀ e ∈ xs, e.1.head? ≠ some playerdataDir ∨ e.1.length ≠ 2) →
      combinePlayerdataRows (xs ++ ys) acc = combinePlayerdataRows ys acc := by
  intro xs
  induction xs with
  | nil => intro ys acc _; rfl
  | cons e rest ih =>
    intro ys acc h
    obtain ⟨p, d⟩ := e
    rw [List.cons_append,
      combinePlayerdataRows_skip p d _ acc (h (p, d) (by simp))]
    exact ih ys acc fun e he => h e (List.mem_cons_of_mem _ he)

/-- The playerdata rows re-inserted by `combinePlayerdata`, in order:
one `(playeruid, data)` per non-null row with a non-empty UID. -/
def playerRows (rows : List (Str × Option Blob)) : List (Str × Blob) :=
  rows.filterMap fun r =>
    if r.1 = [] then none else r.2.map fun d => (r.1, d)

theorem combinePlayerdataRows_items :
    ∀ (rows : List (Str × Option Blob)) (ys : VTree) (acc : List (Str × Blob)),
      (∀ r ∈ rows, (∀ c ∈ r.1, c ≠ '-' ∧ c ≠ '_') ∧ r.1.getLast? ≠ some '=') →
      combinePlayerdataRows (playerItems rows ++ ys) acc =
        combinePlayerdataRows ys (acc ++ playerRows rows) := by
  intro rows
  induction rows with
  | nil => intro ys acc _; simp [playerItems, playerRows]
  | cons r rest ih =>
    intro ys acc hr
    obtain ⟨uid, od⟩ := r
    have hthis := hr (uid, od) (by simp)
    have hrest := fun r hrr => hr r (List.mem_cons_of_mem _ hrr)
    by_cases hu : uid = []
    · simp only [playerItems, playerRows, List.filterMap_cons, if_pos hu]
      exact ih ys acc hrest
    · cases od with
      | none =>
        simp only [playerItems, playerRows, List.filterMap_cons, if_neg hu]
        exact ih ys acc hrest
      | some d =>
        simp only [playerItems, playerRows, List.filterMap_cons, if_neg hu,
          List.cons_append, Option.map_some']
        rw [combinePlayerdataRows_entry uid d _ acc hthis.1 hthis.2]
        have := ih ys (acc ++ [(uid, d)]) hrest
        simp only [playerItems, playerRows] at this
        rw [this]
        simp

theorem combinePlayerdataRows_all_skip :
    ∀ (ys : VTree) (acc : List (Str × Blob)),
      (∀ e ∈ ys, e.1.head? ≠ some playerdataDir ∨ e.1.length ≠ 2) →
      combinePlayerdataRows ys acc = .ok acc := by
  intro ys
  induction ys with
  | nil => intro acc _; rfl
  | cons e rest ih =>
    intro acc h
    obtain ⟨p, d⟩ := e
    rw [combinePlayerdataRows_skip p d _ acc (h (p, d) (by simp))]
    exact ih acc fun e he => h e (List.mem_cons_of_mem _ he)

theorem mem_playerRows {rows : List (Str × Option Blob)} {u : Str} {v : Blob} :
    (u, v) ∈ playerRows rows ↔ ((u, some v) ∈ rows ∧ u ≠ []) := by
  unfold playerRows
  rw [List.mem_filterMap]
  constructor
  · rintro ⟨⟨u2, od⟩, hmem, hval⟩
    by_cases hu : u2 = []
    · rw [if_pos hu] at hval
      simp at hval
    · rw [if_neg hu] at hval
      cases od with
      | none => simp at hval
      | some d =>
        simp only [Option.map_some', Option.some.injEq, Prod.mk.injEq] at hval
        obtain ⟨h1, h2⟩ := hval
        subst h1
        subst h2
        exact ⟨hmem, hu⟩
  · rintro ⟨hmem, hu⟩
    exact ⟨(u, some v), hmem, by rw [if_neg hu]; rfl⟩

theorem shardItems_shape {subdir : Str} {rows : List (Int × Option Blob)} :
    ∀ e ∈ shardItems subdir rows, e.1.head? = some subdir ∧ e.1.length = 4 := by
  intro e he
  have hp : e.1 ∈ (shardItems subdir rows).map Prod.fst :=
    List.mem_map_of_mem _ he
  obtain ⟨pos, hpos⟩ := mem_shardItems_map hp
  rw [hpos]
  exact ⟨rfl, rfl⟩

theorem gameItems_shape {rows : List (Int × Option Blob)} :
    ∀ e ∈ gameItems rows, e.1.head? = some gamedataDir ∧ e.1.length = 2 := by
  intro e he
  have hp : e.1 ∈ (gameItems rows).map Prod.fst := List.mem_map_of_mem _ he
  obtain ⟨id, hid⟩ := mem_gameItems_map hp
  rw [hid]
  exact ⟨rfl, rfl⟩

theorem playerItems_shape {rows : List (Str × Option Blob)} :
    ∀ e ∈ playerItems rows, e.1.head? = some playerdataDir ∧ e.1.length = 2 := by
  intro e he
  have hp : e.1 ∈ (playerItems rows).map Prod.fst := List.mem_map_of_mem _ he
  obtain ⟨uid, huid⟩ := mem_playerItems_map hp
  rw [huid]
  exact ⟨rfl, rfl⟩

theorem split_assoc (db : DB) :
    Split db = shardItems chunksDir db.chunk ++
      (shardItems mapchunksDir db.mapchunk ++
        (shardItems mapregionsDir db.mapregion ++
          (gameItems db.gamedata ++ playerItems db.playerdata))) := by
  unfold Split
  simp [List.append_assoc]

/-! ## C1: Split then Combine round trip -/

set_option maxRecDepth 40000 in
/-- **C1 counterexample.** For a database holding one playerdata row with
the padded base64 UID `QQ==`, the Split then Combine round trip returns
the row under the key `QQ`: the original `(key, bytes)` pair is not
reproduced, because the stripped `'='` padding is not restored. -/
theorem c1_counterexample :
    Combine (Split ⟨[], [], [], [], [(("QQ==").data, some [7])]⟩) =
      .ok ⟨[], [], [], [], [(("QQ").data, [7])]⟩ ∧
    (("QQ").data, some ([7] : Blob)) ∉
      (⟨[], [], [], [], [(("QQ==").data, some [7])]⟩ : DB).playerdata := by
  refine ⟨by rfl, by decide⟩

/-- **C1 (amended).** For every source database over the five tables
whose keyed tables have distinct in-range 64-bit keys (as the SQLite
primary keys and integer width guarantee) and whose playerdata UIDs are
non-empty, distinct, free of `'-'` and `'_'`, and carry no trailing `'='`
padding, the Split then Combine round trip reproduces exactly the set of
`(key, byte-content)` pairs of the non-null rows of every table
(ordering and surrogate playerdata ids excepted).  The distinctness of
the sanitized playerdata filenames — implied by these hypotheses — is
what keeps two rows from colliding on one file. -/
theorem c1_split_combine_roundtrip (db : DB)
    (hcnd : (db.chunk.map Prod.fst).Nodup)
    (hmcnd : (db.mapchunk.map Prod.fst).Nodup)
    (hmrnd : (db.mapregion.map Prod.fst).Nodup)
    (hgnd : (db.gamedata.map Prod.fst).Nodup)
    (hcr : ∀ r ∈ db.chunk, -(2 ^ 63 : Int) ≤ r.1 ∧ r.1 < 2 ^ 63)
    (hmcr : ∀ r ∈ db.mapchunk, -(2 ^ 63 : Int) ≤ r.1 ∧ r.1 < 2 ^ 63)
    (hmrr : ∀ r ∈ db.mapregion, -(2 ^ 63 : Int) ≤ r.1 ∧ r.1 < 2 ^ 63)
    (hgr : ∀ r ∈ db.gamedata, -(2 ^ 63 : Int) ≤ r.1 ∧ r.1 < 2 ^ 63)
    (hpu : ∀ r ∈ db.playerdata, r.1 ≠ [] ∧ (∀ c ∈ r.1, c ≠ '-' ∧ c ≠ '_') ∧
      r.1.getLast? ≠ some '=')
    (_hpnd : (db.playerdata.map Prod.fst).Nodup) :
    ∃ out, Combine (Split db) = .ok out ∧
      (∀ k v, ((k, v) ∈ out.chunk ↔ (k, some v) ∈ db.chunk)) ∧
      (∀ k v, ((k, v) ∈ out.mapchunk ↔ (k, some v) ∈ db.mapchunk)) ∧
      (∀ k v, ((k, v) ∈ out.mapregion ↔ (k, some v) ∈ db.mapregion)) ∧
      (∀ k v, ((k, v) ∈ out.gamedata ↔ (k, some v) ∈ db.gamedata)) ∧
      (∀ u v, ((u, v) ∈ out.playerdata ↔ (u, some v) ∈ db.playerdata)) := by
  have hS := split_assoc db
  have hchunk : combineShardedRows chunksDir (Split db) [] =
      .ok (foldUpsert [] db.chunk) := by
    rw [hS, combineShardedRows_items chunksDir db.chunk _ [] hcr]
    apply combineShardedRows_skip_all
    intro e he
    rcases List.mem_append.mp he with h | he2
    · rw [(shardItems_shape e h).1]; decide
    rcases List.mem_append.mp he2 with h | he3
    · rw [(shardItems_shape e h).1]; decide
    rcases List.mem_append.mp he3 with h | h
    · rw [(gameItems_shape e h).1]; decide
    · rw [(playerItems_shape e h).1]; decide
  have hmapchunk : combineShardedRows mapchunksDir (Split db) [] =
      .ok (foldUpsert [] db.mapchunk) := by
    rw [hS, combineShardedRows_skip_pre mapchunksDir _ _ []
      (by intro e h; rw [(shardItems_shape e h).1]; decide)]
    rw [combineShardedRows_items mapchunksDir db.mapchunk _ [] hmcr]
    apply combineShardedRows_skip_all
    intro e he
    rcases List.mem_append.mp he with h | he2
    · rw [(shardItems_shape e h).1]; decide
    rcases List.mem_append.mp he2 with h | h
    · rw [(gameItems_shape e h).1]; decide
    · rw [(playerItems_shape e h).1]; decide
  have hmapregion : combineShardedRows mapregionsDir (Split db) [] =
      .ok (foldUpsert [] db.mapregion) := by
    rw [hS, combineShardedRows_skip_pre mapregionsDir _ _ []
      (by intro e h; rw [(shardItems_shape e h).1]; decide)]
    rw [combineShardedRows_skip_pre mapregionsDir _ _ []
      (by intro e h; rw [(shardItems_shape e h).1]; decide)]
    rw [combineShardedRows_items mapregionsDir db.mapregion _ [] hmrr]
    apply combineShardedRows_skip_all
    intro e he
    rcases List.mem_append.mp he with h | h
    · rw [(gameItems_shape e h).1]; decide
    · rw [(playerItems_shape e h).1]; decide
  have hgame : combineGamedataRows (Split db) [] =
      .ok (foldUpsert [] db.gamedata) := by
    rw [hS, combineGamedataRows_skip_pre _ _ []
      (by intro e h; exact Or.inr (by rw [(shardItems_shape e h).2]; decide))]
    rw [combineGamedataRows_skip_pre _ _ []
      (by intro e h; exact Or.inr (by rw [(shardItems_shape e h).2]; decide))]
    rw [combineGamedataRows_skip_pre _ _ []
      (by intro e h; exact Or.inr (by rw [(shardItems_shape e h).2]; decide))]
    rw [combineGamedataRows_items db.gamedata _ [] hgr]
    apply combineGamedataRows_skip_all
    intro e h
    exact Or.inl (by rw [(playerItems_shape e h).1]; decide)
  have hplayer : combinePlayerdataRows (Split db) [] =
      .ok ([] ++ playerRows db.playerdata) := by
    rw [hS, combinePlayerdataRows_skip_pre _ _ []
      (by intro e h; exact Or.inr (by rw [(shardItems_shape e h).2]; decide))]
    rw [combinePlayerdataRows_skip_pre _ _ []
      (by intro e h; exact Or.inr (by rw [(shardItems_shape e h).2]; decide))]
    rw [combinePlayerdataRows_skip_pre _ _ []
      (by intro e h; exact Or.inr (by rw [(shardItems_shape e h).2]; decide))]
    rw [combinePlayerdataRows_skip_pre _ _ []
      (by intro e h; exact Or.inl (by rw [(gameItems_shape e h).1]; decide))]
    rw [← List.append_nil (playerItems db.playerdata)]
    rw [combinePlayerdataRows_items db.playerdata [] []
      (fun r hr => ⟨(hpu r hr).2.1, (hpu r hr).2.2⟩)]
    rfl
  refine ⟨⟨foldUpsert [] db.chunk, foldUpsert [] db.mapchunk,
    foldUpsert [] db.mapregion, foldUpsert [] db.gamedata,
    [] ++ playerRows db.playerdata⟩, ?_, ?_, ?_, ?_, ?_, ?_⟩
  · unfold Combine
    rw [hchunk, hmapchunk, hmapregion, hgame, hplayer]
  · intro k v
    exact foldUpsert_mem db.chunk hcnd k v
  · intro k v
    exact foldUpsert_mem db.mapchunk hmcnd k v
  · intro k v
    exact foldUpsert_mem db.mapregion hmrnd k v
  · intro k v
    exact foldUpsert_mem db.gamedata hgnd k v
  · intro u v
    simp only [List.nil_append]
    rw [mem_playerRows]
    constructor
    · rintro ⟨h, _⟩
      exact h
    · intro h
      exact ⟨h, (hpu (u, some v) h).1⟩

/-- A small concrete database exercising all five tables, used to witness
the round-trip theorem. -/
def c1WitnessDB : DB :=
  ⟨[(5, some [1])], [(6, some [2])], [(7, some [3])], [(-3, some [4])],
   [(("AB+c/D").data, some [5])]⟩

theorem c1_split_combine_roundtrip_witness :
    ((c1WitnessDB.chunk.map Prod.fst).Nodup ∧
      (c1WitnessDB.gamedata.map Prod.fst).Nodup ∧
      (∀ r ∈ c1WitnessDB.chunk, -(2 ^ 63 : Int) ≤ r.1 ∧ r.1 < 2 ^ 63) ∧
      (∀ r ∈ c1WitnessDB.playerdata, r.1 ≠ [] ∧
        (∀ c ∈ r.1, c ≠ '-' ∧ c ≠ '_') ∧ r.1.getLast? ≠ some '=')) ∧
    (∃ out, Combine (Split c1WitnessDB) = .ok out ∧
      (∀ k v, ((k, v) ∈ out.chunk ↔ (k, some v) ∈ c1WitnessDB.chunk)) ∧
      (∀ k v, ((k, v) ∈ out.mapchunk ↔ (k, some v) ∈ c1WitnessDB.mapchunk)) ∧
      (∀ k v, ((k, v) ∈ out.mapregion ↔ (k, some v) ∈ c1WitnessDB.mapregion)) ∧
      (∀ k v, ((k, v) ∈ out.gamedata ↔ (k, some v) ∈ c1WitnessDB.gamedata)) ∧
      (∀ u v, ((u, v) ∈ out.playerdata ↔ (u, some v) ∈ c1WitnessDB.playerdata))) :=
  ⟨⟨by decide, by decide, by decide, by decide⟩,
   c1_split_combine_roundtrip c1WitnessDB (by decide) (by decide) (by decide)
     (by decide) (by decide) (by decide) (by decide) (by decide) (by decide)
     (by decide)⟩

/-! ## C6: malformed filenames during Combine -/

theorem getLast?_eq_lastNameD {p : FPath} (h : p ≠ []) :
    p.getLast? = some (lastNameD p) := by
  unfold lastNameD
  cases hgl : p.getLast? with
  | none =>
    exact absurd (by simpa using hgl) h
  | some n => rfl

theorem combineShardedRows_skip_nonbin (subdir : Str) (p : FPath) (d : Blob)
    (rest : VTree) (acc : List (Int × Blob))
    (hhead : p.head? = some subdir)
    (hbin : endsWithStr binExt (lastNameD p) = false) :
    combineShardedRows subdir ((p, d) :: rest) acc =
      combineShardedRows subdir rest acc := by
  have hne : p ≠ [] := by
    intro h
    rw [h] at hhead
    simp at hhead
  simp only [combineShardedRows, if_pos hhead, getLast?_eq_lastNameD hne, hbin,
    Bool.false_eq_true, if_false]

theorem combineShardedRows_error_of_malformed (subdir : Str) :
    ∀ (tree : VTree) (acc : List (Int × Blob)) (p : FPath) (d : Blob),
      (p, d) ∈ tree → p.head? = some subdir →
      endsWithStr binExt (lastNameD p) = true →
      ((trimSuffixStr binExt (lastNameD p)).length ≠ 16 ∨
        parseHexNat (trimSuffixStr binExt (lastNameD p)) = none) →
      exceptOk (combineShardedRows subdir tree acc) = false := by
  intro tree
  induction tree with
  | nil => intro acc p d hmem _ _ _; simp at hmem
  | cons e rest ih =>
    intro acc p d hmem hhead hbin hbad
    obtain ⟨q, dq⟩ := e
    rcases List.mem_cons.mp hmem with heq | hmem'
    · injection heq with h1 h2
      subst h1
      subst h2
      have hne : p ≠ [] := by
        intro h
        rw [h] at hhead
        simp at hhead
      simp only [combineShardedRows, if_pos hhead,
        getLast?_eq_lastNameD hne, hbin, if_true]
      rcases hbad with hb | hb
      · rw [if_neg hb]
        rfl
      · by_cases hlen : (trimSuffixStr binExt (lastNameD p)).length = 16
        · rw [if_pos hlen, hb]
          rfl
        · rw [if_neg hlen]
          rfl
    · simp only [combineShardedRows]
      split
      · split
        · exact ih acc p d hmem' hhead hbin hbad
        · split
          · split
            · split
              · exact ih _ p d hmem' hhead hbin hbad
              · rfl
            · rfl
          · exact ih acc p d hmem' hhead hbin hbad
      · exact ih acc p d hmem' hhead hbin hbad

theorem combineGamedataRows_skip_malformed (name : Str) (d : Blob)
    (rest : VTree) (acc : List (Int × Blob))
    (h : endsWithStr binExt name = false ∨
      parseGoInt64 (trimSuffixStr binExt name) = none) :
    combineGamedataRows (([gamedataDir, name], d) :: rest) acc =
      combineGamedataRows rest acc := by
  rcases h with h | h
  · simp only [combineGamedataRows, if_true, h]
    simp
  · by_cases hb : endsWithStr binExt name = true
    · simp only [combineGamedataRows, if_true, hb, h]
    · simp only [combineGamedataRows, if_true, if_neg hb]

theorem combinePlayerdataRows_ok :
    ∀ (tree : VTree) (acc : List (Str × Blob)),
      ∃ r, combinePlayerdataRows tree acc = .ok r := by
  intro tree
  induction tree with
  | nil => intro acc; exact ⟨acc, rfl⟩
  | cons e rest ih =>
    intro acc
    obtain ⟨p, d⟩ := e
    match p with
    | [] => exact ih acc
    | [a] => exact ih acc
    | [a, b] =>
      by_cases ha : a = playerdataDir
      · subst ha
        by_cases hb : endsWithStr binExt b = true
        · simp only [combinePlayerdataRows, if_true, hb]
          exact ih _
        · simp only [combinePlayerdataRows, if_true, if_neg hb]
          exact ih acc
      · simp only [combinePlayerdataRows, if_neg ha]
        exact ih acc
    | a :: b :: c :: t => exact ih acc

/-- **C6 counterexample.** A malformed gamedata filename (`xx.bin`, whose
stem is not an integer) is silently skipped, not an error: `Combine`
succeeds with zero rows, contradicting "a hard error for that table's
reconstruction, for every table". -/
theorem c6_counterexample :
    Combine [([gamedataDir, ('x' :: 'x' :: []) ++ binExt], [0])] =
      .ok ⟨[], [], [], [], []⟩ := by
  rfl

/-- **C6 (amended).** During `Combine`: for the sharded tables, a file
under the managed subdirectory whose name ends in `.bin` but whose stem
is not exactly 16 hex digits is a hard error for that table, while files
without the `.bin` suffix are skipped; for gamedata, a file without the
`.bin` suffix or whose stem does not parse as a decimal integer is
skipped without error; playerdata reconstruction accepts every filename
and never fails; a missing managed subdirectory is not an error and
contributes zero rows. -/
theorem c6_combine_malformed_names :
    (∀ (subdir : Str) (tree : VTree) (p : FPath) (d : Blob),
        (p, d) ∈ tree → p.head? = some subdir →
        endsWithStr binExt (lastNameD p) = true →
        ((trimSuffixStr binExt (lastNameD p)).length ≠ 16 ∨
          parseHexNat (trimSuffixStr binExt (lastNameD p)) = none) →
        exceptOk (combineShardedRows subdir tree []) = false) ∧
    (∀ (subdir : Str) (p : FPath) (d : Blob) (rest : VTree)
        (acc : List (Int × Blob)),
        p.head? = some subdir →
        endsWithStr binExt (lastNameD p) = false →
        combineShardedRows subdir ((p, d) :: rest) acc =
          combineShardedRows subdir rest acc) ∧
    (∀ (subdir : Str) (tree : VTree),
        (∀ e ∈ tree, e.1.head? ≠ some subdir) →
        combineShardedRows subdir tree [] = .ok []) ∧
    (∀ (name : Str) (d : Blob) (rest : VTree),
        (endsWithStr binExt name = false ∨
          parseGoInt64 (trimSuffixStr binExt name) = none) →
        combineGamedataRows (([gamedataDir, name], d) :: rest) [] =
          combineGamedataRows rest []) ∧
    (∀ tree : VTree,
        (∀ e ∈ tree, e.1.head? ≠ some gamedataDir ∨ e.1.length ≠ 2) →
        combineGamedataRows tree [] = .ok []) ∧
    (∀ (tree : VTree) (acc : List (Str × Blob)),
        ∃ r, combinePlayerdataRows tree acc = .ok r) :=
  ⟨fun subdir tree p d hmem hhead hbin hbad =>
      combineShardedRows_error_of_malformed subdir tree [] p d hmem hhead hbin hbad,
   fun subdir p d rest acc hhead hbin =>
      combineShardedRows_skip_nonbin subdir p d rest acc hhead hbin,
   fun subdir tree h => combineShardedRows_skip_all subdir tree [] h,
   fun name d rest h => combineGamedataRows_skip_malformed name d rest [] h,
   fun tree h => combineGamedataRows_skip_all tree [] h,
   combinePlayerdataRows_ok⟩

theorem c6_combine_malformed_names_witness :
    ((([chunksDir, ('d' :: 'e' :: 'a' :: 'd' :: []) ++ binExt], ([0] : Blob)) ∈
        ([([chunksDir, ('d' :: 'e' :: 'a' :: 'd' :: []) ++ binExt], [0])] : VTree)) ∧
      ([chunksDir, ('d' :: 'e' :: 'a' :: 'd' :: []) ++ binExt] :
          FPath).head? = some chunksDir ∧
      endsWithStr binExt
        (lastNameD [chunksDir, ('d' :: 'e' :: 'a' :: 'd' :: []) ++ binExt]) = true ∧
      (trimSuffixStr binExt
        (lastNameD [chunksDir,
          ('d' :: 'e' :: 'a' :: 'd' :: []) ++ binExt])).length ≠ 16) ∧
    exceptOk (combineShardedRows chunksDir
      [([chunksDir, ('d' :: 'e' :: 'a' :: 'd' :: []) ++ binExt], [0])] []) =
      false ∧
    (([chunksDir, ('j' :: 'u' :: 'n' :: 'k' :: [])] : FPath).head? =
        some chunksDir ∧
      endsWithStr binExt
        (lastNameD [chunksDir, ('j' :: 'u' :: 'n' :: 'k' :: [])]) = false ∧
      combineShardedRows chunksDir
        [([chunksDir, ('j' :: 'u' :: 'n' :: 'k' :: [])], [0])] [] =
        combineShardedRows chunksDir [] []) :=
  ⟨⟨by decide, by decide, by decide, by decide⟩,
   c6_combine_malformed_names.1 chunksDir
     [([chunksDir, ('d' :: 'e' :: 'a' :: 'd' :: []) ++ binExt], [0])]
     [chunksDir, ('d' :: 'e' :: 'a' :: 'd' :: []) ++ binExt] [0]
     (by decide) (by decide) (by decide) (Or.inl (by decide)),
   by decide, by decide,
   c6_combine_malformed_names.2.1 chunksDir
     [chunksDir, ('j' :: 'u' :: 'n' :: 'k' :: [])] [0] [] []
     (by decide) (by decide)⟩
